import Mathlib

/-!
Formal model of the asynchronous entity driver of the tscat_gui repository.

The definitions below are a shallow embedding of the Python source:

* `src/tscat_gui/tscat_driver/actions.py`  (the Action classes)
* `src/tscat_gui/tscat_driver/driver.py`   (the entity cache)
* `src/tscat_gui/tscat_driver/nodes.py`    (the Node tree)
* `src/tscat_gui/tscat_driver/tscat_root_model.py` (the tree patch handlers)
* `src/tscat_gui/undo.py` and `src/tscat_gui/state.py` (undo commands and
  selection state)

The backing store (the external `tscat` library) is modelled as a value
`Store` of entities plus catalogue-to-event assignment links; the tscat
query/mutation primitives used by the actions are modelled by pure
functions on `Store`.  Python exceptions are modelled with `Except Exc`.
-/

/-- Python exception values raised by the modelled code. -/
inductive Exc where
  | assertionError
  | attributeError
  | keyError
  | opError (code : Nat)
deriving DecidableEq, Repr

/-- Values of entity attributes (the dynamic attribute bag of a tscat
entity: strings, numbers, booleans and string lists are enough for the
claims under study). -/
inductive AttrValue where
  | str (v : String)
  | int (v : Int)
  | boolean (v : Bool)
  | strList (v : List String)
deriving DecidableEq, Repr

/-- The two tscat entity classes `_Catalogue` and `_Event`. -/
inductive EntityType where
  | catalogue
  | event
deriving DecidableEq, Repr

/-- A tscat entity: uuid, class, full attribute bag (fixed and variable
attributes together, keyed by name), and the soft-delete flag reported by
`is_removed()`. -/
structure Entity where
  uuid : String
  etype : EntityType
  attrs : List (String × AttrValue)
  in_trash : Bool
deriving DecidableEq, Repr

/-- Result of `entity.dump()`: the full attribute dictionary, including the
uuid (`create_catalogue(**dump)` recreates the entity under the same uuid;
the trash flag is not part of the dump and is recorded separately by
`DeletePermanentlyAction`). -/
structure EntityDump where
  uuid : String
  attrs : List (String × AttrValue)
deriving DecidableEq, Repr

/-- `entity.dump()` of the tscat library. -/
def Entity.dump (e : Entity) : EntityDump := ⟨e.uuid, e.attrs⟩

/-- The tscat backing store: all entities plus the many-to-many
catalogue-to-event assignment links (first component: catalogue uuid,
second component: event uuid). -/
structure Store where
  entities : List Entity
  links : List (String × String)
deriving DecidableEq, Repr

/-- Predicate selecting entities of a given class and trash state. -/
def entPred (ty : EntityType) (removed : Bool) (x : Entity) : Bool :=
  x.etype == ty && x.in_trash == removed

/-- Modelled tscat `get_catalogues(UUID(u), removed_items=removed)`. -/
def getCataloguesByUuid (s : Store) (u : String) (removed : Bool) : List Entity :=
  s.entities.filter (fun x => entPred .catalogue removed x && x.uuid == u)

/-- Modelled tscat `get_events(UUID(u), removed_items=removed)`. -/
def getEventsByUuid (s : Store) (u : String) (removed : Bool) : List Entity :=
  s.entities.filter (fun x => entPred .event removed x && x.uuid == u)

/-- Event uuids currently assigned to the catalogue `cu` (the link view). -/
def assignedEventUuids (s : Store) (cu : String) : List String :=
  (s.links.filter (fun l => l.1 == cu)).map (fun l => l.2)

/-- Catalogue uuids the event `eu` is currently assigned to (the link view). -/
def catalogueUuidsLinked (s : Store) (eu : String) : List String :=
  (s.links.filter (fun l => l.2 == eu)).map (fun l => l.1)

/-- Modelled tscat `get_events(catalogue, assigned_only=True)[0]`: the event
entities assigned to the catalogue (trash state of the events is not
filtered here; the repository uses this call to enumerate every assigned
event). -/
def getEventsAssigned (s : Store) (cu : String) : List Entity :=
  s.entities.filter (fun x => x.etype == .event && decide (x.uuid ∈ assignedEventUuids s cu))

/-- Modelled tscat `get_catalogues(event)`: the catalogue entities the event
is assigned to. -/
def getCataloguesOfEvent (s : Store) (eu : String) : List Entity :=
  s.entities.filter (fun x => x.etype == .catalogue && decide (x.uuid ∈ catalogueUuidsLinked s eu))

/-- The `assert len(entities) == 1; return entities[0]` tail shared by
`Action._entity` and `Action._event`. -/
def pickUnique (l : List Entity) : Except Exc Entity :=
  match l with
  | [e] => .ok e
  | _ => .error .assertionError

/-- The candidate list built by `Action._entity` (actions.py lines 20-32):
try catalogues, removed catalogues, events, removed events in that order,
keeping the first non-empty result. -/
def entityCandidates (s : Store) (u : String) : List Entity :=
  let l1 := getCataloguesByUuid s u false
  if l1.length == 0 then
    let l2 := getCataloguesByUuid s u true
    if l2.length == 0 then
      let l3 := getEventsByUuid s u false
      if l3.length == 0 then getEventsByUuid s u true else l3
    else l2
  else l1

/-- Translated from `Action._entity` (actions.py lines 20-32). -/
def entityByUuid (s : Store) (u : String) : Except Exc Entity :=
  pickUnique (entityCandidates s u)

/-- The candidate list built by `Action._event` (actions.py lines 34-42). -/
def eventCandidates (s : Store) (u : String) : List Entity :=
  let l1 := getEventsByUuid s u false
  if l1.length == 0 then getEventsByUuid s u true else l1

/-- Translated from `Action._event` (actions.py lines 34-42). -/
def eventByUuid (s : Store) (u : String) : Except Exc Entity :=
  pickUnique (eventCandidates s u)

/-- Modelled tscat in-place entity mutation: replace the entity with uuid
`e.uuid` by `e`. -/
def updateEntity (s : Store) (e : Entity) : Store :=
  { s with entities := s.entities.map (fun x => if x.uuid == e.uuid then e else x) }

/-- Modelled tscat `entity.remove()` / `entity.restore()`: set the trash
flag of the entity with uuid `u`. -/
def setTrash (s : Store) (u : String) (b : Bool) : Store :=
  { s with entities :=
      s.entities.map (fun x => if x.uuid == u then { x with in_trash := b } else x) }

/-- Modelled tscat `entity.remove(permanently=True)`: drop the entity and
every assignment link touching it. -/
def removePermanently (s : Store) (u : String) : Store :=
  { entities := s.entities.filter (fun x => !(x.uuid == u)),
    links := s.links.filter (fun l => !(l.1 == u) && !(l.2 == u)) }

/-- Modelled tscat `create_catalogue(**data)` / `create_event(**data)`:
append a fresh, non-trashed entity built from the dump. -/
def createEntity (s : Store) (ty : EntityType) (d : EntityDump) : Store × Entity :=
  let e : Entity := ⟨d.uuid, ty, d.attrs, false⟩
  ({ s with entities := s.entities ++ [e] }, e)

/-- Modelled tscat `add_events_to_catalogue(catalogue, events)`: append one
assignment link per event. -/
def addEventsToCatalogue (s : Store) (cu : String) (eus : List String) : Store :=
  { s with links := s.links ++ eus.map (fun x => (cu, x)) }

/-- Modelled tscat `remove_events_from_catalogue(catalogue, events)`: drop
the assignment links from the catalogue to the given events. -/
def removeEventsFromCatalogue (s : Store) (cu : String) (eus : List String) : Store :=
  { s with links := s.links.filter (fun l => !(l.1 == cu && decide (l.2 ∈ eus))) }

/-- Modelled Python attribute delete on a tscat entity
(`entity.__delattr__(name)`): deleting an attribute that does not exist
raises `AttributeError`. -/
def delattrEntity (e : Entity) (name : String) : Except Exc Entity :=
  if (e.attrs.map Prod.fst).contains name then
    .ok { e with attrs := e.attrs.filter (fun kv => !(kv.1 == name)) }
  else
    .error .attributeError

/-- Well-formed store: entity uuids are unique, and every assignment link
joins an existing catalogue to an existing event. -/
def WfStore (s : Store) : Prop :=
  (s.entities.map Entity.uuid).Nodup ∧
  ∀ l ∈ s.links,
    (∃ c ∈ s.entities, c.etype = .catalogue ∧ c.uuid = l.1) ∧
    (∃ e ∈ s.entities, e.etype = .event ∧ e.uuid = l.2)

/-- Translated from `DeleteAttributeAction.action` (actions.py lines
141-151): for each uuid, look the entity up and delete the attribute,
collecting the mutated entities; exceptions propagate. -/
def deleteAttributeActionRun (s : Store) (name : String) :
    List String → Except Exc (Store × List Entity)
  | [] => .ok (s, [])
  | u :: rest =>
    match entityByUuid s u with
    | .error ex => .error ex
    | .ok entity =>
      match delattrEntity entity name with
      | .error ex => .error ex
      | .ok entity2 =>
        match deleteAttributeActionRun (updateEntity s entity2) name rest with
        | .error ex => .error ex
        | .ok (s2, es) => .ok (s2, entity2 :: es)

theorem filter_and_uuid {l : List Entity} {u : String} {e : Entity}
    (p : Entity → Bool)
    (h : l.filter (fun x => x.uuid == u) = [e]) :
    l.filter (fun x => p x && x.uuid == u) = if p e then [e] else [] := by
  induction l with
  | nil => simp at h
  | cons a t ih =>
    rw [List.filter_cons] at h
    by_cases hu : a.uuid = u
    · rw [if_pos (by simpa using hu)] at h
      have ha : a = e := (List.cons_eq_cons.mp h).1
      have ht : t.filter (fun x => x.uuid == u) = [] := (List.cons_eq_cons.mp h).2
      have ht2 : t.filter (fun x => p x && x.uuid == u) = [] := by
        rw [List.filter_eq_nil_iff] at ht ⊢
        intro x hx hc
        exact ht x hx (Bool.and_elim_right hc)
      subst ha
      rw [List.filter_cons, ht2]
      by_cases hp : p a = true
      · rw [if_pos (by simp [hp, hu]), if_pos hp]
      · rw [if_neg (by simp [hp]), if_neg hp]
    · rw [if_neg (by simpa using hu)] at h
      rw [List.filter_cons, if_neg (by simp [hu])]
      exact ih h

theorem filter_uuid_of_mem {l : List Entity} {e : Entity}
    (hwf : (l.map Entity.uuid).Nodup) (hmem : e ∈ l) :
    l.filter (fun x => x.uuid == e.uuid) = [e] := by
  induction l with
  | nil => simp at hmem
  | cons a t ih =>
    rw [List.map_cons, List.nodup_cons] at hwf
    rcases List.mem_cons.mp hmem with ha | ht
    · subst ha
      have htf : t.filter (fun x => x.uuid == e.uuid) = [] := by
        rw [List.filter_eq_nil_iff]
        intro x hx hc
        exact hwf.1 (by
          have hxu : x.uuid = e.uuid := by simpa using hc
          exact hxu ▸ List.mem_map_of_mem Entity.uuid hx)
      rw [List.filter_cons, if_pos (by simp), htf]
    · have hne : ¬ a.uuid = e.uuid := by
        intro hc
        exact hwf.1 (hc ▸ List.mem_map_of_mem Entity.uuid ht)
      rw [List.filter_cons, if_neg (by simp [hne])]
      exact ih hwf.2 ht

theorem filter_and_uuid_pos {l : List Entity} {u : String} {e : Entity}
    (p : Entity → Bool)
    (h : l.filter (fun x => x.uuid == u) = [e]) (hp : p e = true) :
    l.filter (fun x => p x && x.uuid == u) = [e] := by
  rw [filter_and_uuid p h]
  simp [hp]

theorem filter_and_uuid_neg {l : List Entity} {u : String} {e : Entity}
    (p : Entity → Bool)
    (h : l.filter (fun x => x.uuid == u) = [e]) (hp : p e = false) :
    l.filter (fun x => p x && x.uuid == u) = [] := by
  rw [filter_and_uuid p h]
  simp [hp]

theorem entityByUuid_of_mem {s : Store} {e : Entity}
    (hnd : (s.entities.map Entity.uuid).Nodup) (hmem : e ∈ s.entities) :
    entityByUuid s e.uuid = .ok e := by
  have hfu := filter_uuid_of_mem hnd hmem
  unfold entityByUuid entityCandidates getCataloguesByUuid getEventsByUuid
  rcases hty : e.etype with _ | _ <;> rcases htr : e.in_trash with _ | _
  · rw [filter_and_uuid_pos (entPred .catalogue false) hfu (by simp [entPred, hty, htr])]
    rfl
  · rw [filter_and_uuid_neg (entPred .catalogue false) hfu (by simp [entPred, hty, htr]),
      filter_and_uuid_pos (entPred .catalogue true) hfu (by simp [entPred, hty, htr])]
    rfl
  · rw [filter_and_uuid_neg (entPred .catalogue false) hfu (by simp [entPred, hty]),
      filter_and_uuid_neg (entPred .catalogue true) hfu (by simp [entPred, hty]),
      filter_and_uuid_pos (entPred .event false) hfu (by simp [entPred, hty, htr])]
    rfl
  · rw [filter_and_uuid_neg (entPred .catalogue false) hfu (by simp [entPred, hty]),
      filter_and_uuid_neg (entPred .catalogue true) hfu (by simp [entPred, hty]),
      filter_and_uuid_neg (entPred .event false) hfu (by simp [entPred, hty, htr]),
      filter_and_uuid_pos (entPred .event true) hfu (by simp [entPred, hty, htr])]
    rfl

theorem eventByUuid_of_mem {s : Store} {e : Entity}
    (hnd : (s.entities.map Entity.uuid).Nodup) (hmem : e ∈ s.entities)
    (hty : e.etype = .event) :
    eventByUuid s e.uuid = .ok e := by
  have hfu := filter_uuid_of_mem hnd hmem
  unfold eventByUuid eventCandidates getEventsByUuid
  rcases htr : e.in_trash with _ | _
  · rw [filter_and_uuid_pos (entPred .event false) hfu (by simp [entPred, hty, htr])]
    rfl
  · rw [filter_and_uuid_neg (entPred .event false) hfu (by simp [entPred, hty, htr]),
      filter_and_uuid_pos (entPred .event true) hfu (by simp [entPred, hty, htr])]
    rfl

/-- C8: deleting a nonexistent attribute fails loudly.  Translated claim:
for an entity in the store and an attribute name absent from its attribute
bag, `DeleteAttributeAction` on that entity's uuid raises
(`AttributeError`) instead of succeeding. -/
theorem deleteAttribute_missing_fails (s : Store) (e : Entity) (name : String)
    (hwf : WfStore s) (hmem : e ∈ s.entities)
    (hname : ¬ (e.attrs.map Prod.fst).contains name = true) :
    deleteAttributeActionRun s name [e.uuid] = .error .attributeError := by
  have h1 := entityByUuid_of_mem hwf.1 hmem
  have h2 : delattrEntity e name = .error .attributeError := by
    unfold delattrEntity
    rw [if_neg hname]
  simp [deleteAttributeActionRun, h1, h2]

/-- Witness for `deleteAttribute_missing_fails` at a concrete store. -/
theorem deleteAttribute_missing_fails_witness :
    deleteAttributeActionRun
      ⟨[⟨"u1", .catalogue, [("name", .str "c")], false⟩], []⟩ "color" ["u1"]
      = .error .attributeError := by
  have h := deleteAttribute_missing_fails
    ⟨[⟨"u1", .catalogue, [("name", .str "c")], false⟩], []⟩
    ⟨"u1", .catalogue, [("name", .str "c")], false⟩ "color"
    (by constructor
        · decide
        · intro l hl; simp at hl)
    (by simp) (by decide)
  exact h

/-- Python `list(map(f, xs))` where `f` may raise: stops at the first
exception. -/
def mapME (f : String → Except Exc Entity) : List String → Except Exc (List Entity)
  | [] => .ok []
  | u :: us =>
    match f u with
    | .error ex => .error ex
    | .ok e =>
      match mapME f us with
      | .error ex => .error ex
      | .ok es => .ok (e :: es)

/-- The `list(set(self.uuids) - existing_events_uuids)` computation of
`AddEventsToCatalogueAction.action` (actions.py lines 105-107), with the
Python set modelled deterministically by `dedup` and set difference by
`filter`: the submitted uuids minus the uuids of the events already
assigned to the catalogue. -/
def freshUuids (s : Store) (cu : String) (uuids : List String) : List String :=
  uuids.dedup.filter
    (fun x => !(decide (x ∈ (getEventsAssigned s cu).map Entity.uuid)))

/-- Translated from `AddEventsToCatalogueAction.action` (actions.py lines
101-108): look up the catalogue, assert its class, replace the action's
`uuids` field by the submitted uuids minus the event uuids already
assigned to the catalogue, and attach the corresponding events.  Returns
the updated store and the rewritten `uuids` field. -/
def addEventsToCatalogueActionRun (s : Store) (uuids : List String)
    (catalogue_uuid : String) : Except Exc (Store × List String) :=
  match entityByUuid s catalogue_uuid with
  | .error ex => .error ex
  | .ok catalogue =>
    if catalogue.etype == .catalogue then
      let newUuids := freshUuids s catalogue.uuid uuids
      match mapME (eventByUuid s) newUuids with
      | .error ex => .error ex
      | .ok _ => .ok (addEventsToCatalogue s catalogue.uuid newUuids, newUuids)
    else .error .assertionError

/-- Translated from `RemoveEventsFromCatalogueAction.action` (actions.py
lines 116-119). -/
def removeEventsFromCatalogueActionRun (s : Store) (uuids : List String)
    (catalogue_uuid : String) : Except Exc Store :=
  match entityByUuid s catalogue_uuid with
  | .error ex => .error ex
  | .ok catalogue =>
    if catalogue.etype == .catalogue then
      match mapME (eventByUuid s) uuids with
      | .error ex => .error ex
      | .ok _ => .ok (removeEventsFromCatalogue s catalogue.uuid uuids)
    else .error .assertionError

theorem pickUnique_ok {l : List Entity} {e : Entity}
    (h : pickUnique l = .ok e) : l = [e] := by
  match l with
  | [] => exact absurd h (by simp [pickUnique])
  | [a] =>
    have : a = e := by simpa [pickUnique] using h
    rw [this]
  | a :: b :: t => exact absurd h (by simp [pickUnique])

theorem mem_getCataloguesByUuid {s : Store} {u : String} {r : Bool} {x : Entity}
    (hx : x ∈ getCataloguesByUuid s u r) : x.uuid = u := by
  have := (List.mem_filter.mp hx).2
  simpa using (Bool.and_elim_right this)

theorem mem_getEventsByUuid {s : Store} {u : String} {r : Bool} {x : Entity}
    (hx : x ∈ getEventsByUuid s u r) : x.uuid = u := by
  have := (List.mem_filter.mp hx).2
  simpa using (Bool.and_elim_right this)

theorem entityCandidates_uuid {s : Store} {u : String} :
    ∀ x ∈ entityCandidates s u, x.uuid = u := by
  intro x hx
  unfold entityCandidates at hx
  simp only [] at hx
  split at hx
  · split at hx
    · split at hx
      · exact mem_getEventsByUuid hx
      · exact mem_getEventsByUuid hx
    · exact mem_getCataloguesByUuid hx
  · exact mem_getCataloguesByUuid hx

theorem entityByUuid_ok_uuid {s : Store} {u : String} {e : Entity}
    (h : entityByUuid s u = .ok e) : e.uuid = u := by
  have hl := pickUnique_ok h
  exact entityCandidates_uuid e (hl ▸ List.mem_singleton_self e)

theorem eventCandidates_uuid {s : Store} {u : String} :
    ∀ x ∈ eventCandidates s u, x.uuid = u := by
  intro x hx
  unfold eventCandidates at hx
  simp only [] at hx
  split at hx
  · exact mem_getEventsByUuid hx
  · exact mem_getEventsByUuid hx

theorem eventByUuid_ok_uuid {s : Store} {u : String} {e : Entity}
    (h : eventByUuid s u = .ok e) : e.uuid = u := by
  have hl := pickUnique_ok h
  exact eventCandidates_uuid e (hl ▸ List.mem_singleton_self e)

theorem mapME_ok_of_events {s : Store} {us : List String}
    (hnd : (s.entities.map Entity.uuid).Nodup)
    (h : ∀ u ∈ us, ∃ ev ∈ s.entities, ev.etype = .event ∧ ev.uuid = u) :
    ∃ evs, mapME (eventByUuid s) us = .ok evs ∧ evs.map Entity.uuid = us := by
  induction us with
  | nil => exact ⟨[], rfl, rfl⟩
  | cons u t ih =>
    obtain ⟨ev, hmem, hty, huuid⟩ := h u (List.mem_cons_self u t)
    have h1 : eventByUuid s u = .ok ev := huuid ▸ eventByUuid_of_mem hnd hmem hty
    obtain ⟨evs, h2, h3⟩ := ih (fun x hx => h x (List.mem_cons_of_mem u hx))
    exact ⟨ev :: evs, by rw [mapME, h1, h2], by rw [List.map_cons, h3, huuid]⟩

theorem mapME_entityByUuid_ok {s : Store} {us : List String}
    (hnd : (s.entities.map Entity.uuid).Nodup)
    (h : ∀ u ∈ us, ∃ c ∈ s.entities, c.etype = .catalogue ∧ c.uuid = u) :
    ∃ cs, mapME (entityByUuid s) us = .ok cs ∧ cs.map Entity.uuid = us ∧
      ∀ c ∈ cs, c.etype = .catalogue := by
  induction us with
  | nil => exact ⟨[], rfl, rfl, by intro c hc; simp at hc⟩
  | cons u t ih =>
    obtain ⟨c0, hmem, hty, huuid⟩ := h u (List.mem_cons_self u t)
    have h1 : entityByUuid s u = .ok c0 := huuid ▸ entityByUuid_of_mem hnd hmem
    obtain ⟨cs, h2, h3, h4⟩ := ih (fun x hx => h x (List.mem_cons_of_mem u hx))
    refine ⟨c0 :: cs, by rw [mapME, h1, h2], by rw [List.map_cons, h3, huuid], ?_⟩
    intro c hc
    rcases List.mem_cons.mp hc with hc | hc
    · exact hc ▸ hty
    · exact h4 c hc

theorem assigned_mem_of_getEventsAssigned {s : Store} {cu x : String} :
    x ∈ (getEventsAssigned s cu).map Entity.uuid → x ∈ assignedEventUuids s cu := by
  intro hx
  obtain ⟨ev, hev, hx⟩ := List.mem_map.mp hx
  have := (List.mem_filter.mp hev).2
  exact hx ▸ of_decide_eq_true (Bool.and_elim_right this)

theorem getEventsAssigned_of_assigned {s : Store} {cu x : String}
    (hwf : WfStore s) (hx : x ∈ assignedEventUuids s cu) :
    x ∈ (getEventsAssigned s cu).map Entity.uuid := by
  obtain ⟨l, hl0, hlx⟩ := List.mem_map.mp hx
  have hl : l ∈ s.links := (List.mem_filter.mp hl0).1
  obtain ⟨_, ⟨ev, hmem, hty, huuid⟩⟩ := hwf.2 l hl
  refine List.mem_map.mpr ⟨ev, List.mem_filter.mpr ⟨hmem, ?_⟩, hlx ▸ huuid⟩
  refine Bool.and_eq_true_iff.mpr ⟨by simp [hty], ?_⟩
  exact decide_eq_true (by rw [huuid, hlx]; exact hx)

theorem assigned_add_same (s : Store) (cu : String) (us : List String) :
    assignedEventUuids (addEventsToCatalogue s cu us) cu
      = assignedEventUuids s cu ++ us := by
  unfold assignedEventUuids addEventsToCatalogue
  rw [List.filter_append, List.map_append]
  congr 1
  induction us with
  | nil => rfl
  | cons a t ih => simpa using ih

theorem wf_addEventsToCatalogue {s : Store} {cu : String} {us : List String}
    (hwf : WfStore s)
    (hcat : ∃ c ∈ s.entities, c.etype = .catalogue ∧ c.uuid = cu)
    (hus : ∀ u ∈ us, ∃ ev ∈ s.entities, ev.etype = .event ∧ ev.uuid = u) :
    WfStore (addEventsToCatalogue s cu us) := by
  constructor
  · exact hwf.1
  · intro l hl
    unfold addEventsToCatalogue at hl
    simp only [List.mem_append] at hl
    rcases hl with hl | hl
    · exact hwf.2 l hl
    · obtain ⟨u, hu, heq⟩ := List.mem_map.mp hl
      constructor
      · exact heq ▸ hcat
      · exact heq ▸ hus u hu

theorem mem_freshUuids {s : Store} {cu : String} {subm : List String} {x : String}
    (hwf : WfStore s) :
    x ∈ freshUuids s cu subm ↔ (x ∈ subm ∧ x ∉ assignedEventUuids s cu) := by
  unfold freshUuids
  rw [List.mem_filter, List.mem_dedup]
  constructor
  · rintro ⟨h1, h2⟩
    refine ⟨h1, fun hx => ?_⟩
    have hm := getEventsAssigned_of_assigned hwf hx
    simp [hm] at h2
  · rintro ⟨h1, h2⟩
    refine ⟨h1, ?_⟩
    have hm : x ∉ (getEventsAssigned s cu).map Entity.uuid :=
      fun hc => h2 (assigned_mem_of_getEventsAssigned hc)
    simp [hm]

theorem freshUuids_nodup (s : Store) (cu : String) (subm : List String) :
    (freshUuids s cu subm).Nodup :=
  (List.nodup_dedup subm).filter _

theorem getEventsAssigned_nil {s : Store} {cu : String}
    (h : assignedEventUuids s cu = []) : getEventsAssigned s cu = [] := by
  unfold getEventsAssigned
  rw [List.filter_eq_nil_iff]
  intro x hx
  simp [h]

theorem addRun_eval {s : Store} {cat : Entity} {subm : List String}
    {catu : String} {evs : List Entity}
    (hl : entityByUuid s catu = .ok cat) (hcty : cat.etype = .catalogue)
    (hmap : mapME (eventByUuid s) (freshUuids s cat.uuid subm) = .ok evs) :
    addEventsToCatalogueActionRun s subm catu
      = .ok (addEventsToCatalogue s cat.uuid (freshUuids s cat.uuid subm),
             freshUuids s cat.uuid subm) := by
  simp only [addEventsToCatalogueActionRun, hl, hcty, beq_self_eq_true, if_true, hmap]

theorem removeRun_eval {s : Store} {cat : Entity} {uuids : List String}
    {catu : String} {evs : List Entity}
    (hl : entityByUuid s catu = .ok cat) (hcty : cat.etype = .catalogue)
    (hmap : mapME (eventByUuid s) uuids = .ok evs) :
    removeEventsFromCatalogueActionRun s uuids catu
      = .ok (removeEventsFromCatalogue s cat.uuid uuids) := by
  simp only [removeEventsFromCatalogueActionRun, hl, hcty, beq_self_eq_true, if_true, hmap]

/-- C10: the `uuids` field of `AddEventsToCatalogueAction` is rewritten to
exactly the submitted uuids not already assigned to the catalogue (so the
completion callback observes only the newly-added uuids), the rewritten
list has no duplicates, and the `AddEventsToCatalogue` undo command
(`RemoveEventsFromCatalogueAction` on that rewritten list) returns the
store to exactly its prior state, keeping previously-assigned events
attached. -/
theorem addEvents_rewritten_uuids_and_undo (s : Store) (cat : Entity)
    (subm : List String)
    (hwf : WfStore s) (hcat : cat ∈ s.entities) (hcty : cat.etype = .catalogue)
    (hsub : ∀ u ∈ subm, ∃ ev ∈ s.entities, ev.etype = .event ∧ ev.uuid = u) :
    ∃ s1 added,
      addEventsToCatalogueActionRun s subm cat.uuid = .ok (s1, added) ∧
      (∀ x, x ∈ added ↔ (x ∈ subm ∧ x ∉ assignedEventUuids s cat.uuid)) ∧
      added.Nodup ∧
      removeEventsFromCatalogueActionRun s1 added cat.uuid = .ok s := by
  have hl : entityByUuid s cat.uuid = .ok cat := entityByUuid_of_mem hwf.1 hcat
  have hfsub : ∀ u ∈ freshUuids s cat.uuid subm,
      ∃ ev ∈ s.entities, ev.etype = .event ∧ ev.uuid = u := by
    intro u hu
    exact hsub u ((mem_freshUuids hwf).mp hu).1
  obtain ⟨evs, hmap, hmapu⟩ := mapME_ok_of_events hwf.1 hfsub
  refine ⟨addEventsToCatalogue s cat.uuid (freshUuids s cat.uuid subm),
    freshUuids s cat.uuid subm, addRun_eval hl hcty hmap, ?_, freshUuids_nodup s _ subm, ?_⟩
  · intro x
    exact mem_freshUuids hwf
  · have hl1 : entityByUuid (addEventsToCatalogue s cat.uuid (freshUuids s cat.uuid subm))
        cat.uuid = .ok cat := hl
    have hmap1 : mapME
        (eventByUuid (addEventsToCatalogue s cat.uuid (freshUuids s cat.uuid subm)))
        (freshUuids s cat.uuid subm) = .ok evs := hmap
    rw [removeRun_eval hl1 hcty hmap1]
    have hlinks : (addEventsToCatalogue s cat.uuid (freshUuids s cat.uuid subm)).links.filter
        (fun l => !(l.1 == cat.uuid && decide (l.2 ∈ freshUuids s cat.uuid subm)))
        = s.links := by
      unfold addEventsToCatalogue
      rw [List.filter_append]
      have h1 : s.links.filter
          (fun l => !(l.1 == cat.uuid && decide (l.2 ∈ freshUuids s cat.uuid subm)))
          = s.links := by
        rw [List.filter_eq_self]
        intro l hlmem
        by_cases hc : l.1 = cat.uuid
        · have hassigned : l.2 ∈ assignedEventUuids s cat.uuid :=
            List.mem_map.mpr ⟨l, List.mem_filter.mpr ⟨hlmem, by simp [hc]⟩, rfl⟩
          have : l.2 ∉ freshUuids s cat.uuid subm :=
            fun hmem => ((mem_freshUuids hwf).mp hmem).2 hassigned
          simp [this]
        · simp [hc]
      have h2 : ((freshUuids s cat.uuid subm).map (fun x => (cat.uuid, x))).filter
          (fun l => !(l.1 == cat.uuid && decide (l.2 ∈ freshUuids s cat.uuid subm)))
          = [] := by
        rw [List.filter_eq_nil_iff]
        intro l hlmem
        obtain ⟨x, hx, heq⟩ := List.mem_map.mp hlmem
        subst heq
        simp [hx]
      rw [h1, h2, List.append_nil]
    unfold removeEventsFromCatalogue
    rw [hlinks]
    rfl

/-- Witness for `addEvents_rewritten_uuids_and_undo` at a concrete store:
one catalogue `"c1"` with event `"e1"` already assigned, submitting
`["e1", "e2"]`. -/
theorem addEvents_rewritten_uuids_and_undo_witness :
    ∃ s1 added,
      addEventsToCatalogueActionRun
        ⟨[⟨"c1", .catalogue, [], false⟩, ⟨"e1", .event, [], false⟩,
          ⟨"e2", .event, [], false⟩], [("c1", "e1")]⟩ ["e1", "e2"] "c1"
        = .ok (s1, added) ∧
      (∀ x, x ∈ added ↔ (x ∈ ["e1", "e2"] ∧
        x ∉ assignedEventUuids
          ⟨[⟨"c1", .catalogue, [], false⟩, ⟨"e1", .event, [], false⟩,
            ⟨"e2", .event, [], false⟩], [("c1", "e1")]⟩ "c1")) ∧
      added.Nodup ∧
      removeEventsFromCatalogueActionRun s1 added "c1"
        = .ok ⟨[⟨"c1", .catalogue, [], false⟩, ⟨"e1", .event, [], false⟩,
                ⟨"e2", .event, [], false⟩], [("c1", "e1")]⟩ :=
  addEvents_rewritten_uuids_and_undo
    ⟨[⟨"c1", .catalogue, [], false⟩, ⟨"e1", .event, [], false⟩,
      ⟨"e2", .event, [], false⟩], [("c1", "e1")]⟩
    ⟨"c1", .catalogue, [], false⟩ ["e1", "e2"]
    (by constructor
        · decide
        · decide)
    (by decide) (by decide)
    (by decide)

/-- C3: `AddEventsToCatalogueAction` is an idempotent attach: running it
twice with the same two (distinct, existing) events adds nothing the
second time, never duplicates an assignment after a prior partial attach,
and starting from a catalogue with no assigned events ends with exactly
the two events attached. -/
theorem addEvents_idempotent (s : Store) (cat ev1 ev2 : Entity)
    (hwf : WfStore s) (hcat : cat ∈ s.entities) (hcty : cat.etype = .catalogue)
    (hev1 : ev1 ∈ s.entities) (hty1 : ev1.etype = .event)
    (hev2 : ev2 ∈ s.entities) (hty2 : ev2.etype = .event)
    (hne : ev1.uuid ≠ ev2.uuid) :
    ∃ s1 added1 s2 added2,
      addEventsToCatalogueActionRun s [ev1.uuid, ev2.uuid] cat.uuid
        = .ok (s1, added1) ∧
      addEventsToCatalogueActionRun s1 [ev1.uuid, ev2.uuid] cat.uuid
        = .ok (s2, added2) ∧
      added2 = [] ∧
      assignedEventUuids s2 cat.uuid = assignedEventUuids s1 cat.uuid ∧
      ((assignedEventUuids s cat.uuid).Nodup →
        (assignedEventUuids s1 cat.uuid).Nodup) ∧
      (assignedEventUuids s cat.uuid = [] →
        assignedEventUuids s2 cat.uuid = [ev1.uuid, ev2.uuid]) := by
  have hl : entityByUuid s cat.uuid = .ok cat := entityByUuid_of_mem hwf.1 hcat
  have hsub : ∀ u ∈ [ev1.uuid, ev2.uuid],
      ∃ ev ∈ s.entities, ev.etype = .event ∧ ev.uuid = u := by
    intro u hu
    rcases List.mem_cons.mp hu with h1 | hu
    · exact ⟨ev1, hev1, hty1, h1.symm⟩
    · rcases List.mem_cons.mp hu with h2 | hu
      · exact ⟨ev2, hev2, hty2, h2.symm⟩
      · simp at hu
  have hfsub : ∀ u ∈ freshUuids s cat.uuid [ev1.uuid, ev2.uuid],
      ∃ ev ∈ s.entities, ev.etype = .event ∧ ev.uuid = u :=
    fun u hu => hsub u ((mem_freshUuids hwf).mp hu).1
  obtain ⟨evs, hmap, hmapu⟩ := mapME_ok_of_events hwf.1 hfsub
  have hwf1 : WfStore (addEventsToCatalogue s cat.uuid
      (freshUuids s cat.uuid [ev1.uuid, ev2.uuid])) :=
    wf_addEventsToCatalogue hwf ⟨cat, hcat, hcty, rfl⟩ hfsub
  have hl1 : entityByUuid (addEventsToCatalogue s cat.uuid
      (freshUuids s cat.uuid [ev1.uuid, ev2.uuid])) cat.uuid = .ok cat := hl
  have hfresh2 : freshUuids (addEventsToCatalogue s cat.uuid
      (freshUuids s cat.uuid [ev1.uuid, ev2.uuid])) cat.uuid [ev1.uuid, ev2.uuid]
      = [] := by
    unfold freshUuids
    rw [List.filter_eq_nil_iff]
    intro x hx
    have hxs : x ∈ [ev1.uuid, ev2.uuid] := List.mem_dedup.mp hx
    have hxa : x ∈ assignedEventUuids (addEventsToCatalogue s cat.uuid
        (freshUuids s cat.uuid [ev1.uuid, ev2.uuid])) cat.uuid := by
      rw [assigned_add_same]
      by_cases hmem : x ∈ assignedEventUuids s cat.uuid
      · exact List.mem_append_left _ hmem
      · exact List.mem_append_right _ ((mem_freshUuids hwf).mpr ⟨hxs, hmem⟩)
    have hever := getEventsAssigned_of_assigned hwf1 hxa
    intro hc
    rw [Bool.not_eq_true', decide_eq_false_iff_not] at hc
    exact hc hever
  have hmap2 : mapME (eventByUuid (addEventsToCatalogue s cat.uuid
      (freshUuids s cat.uuid [ev1.uuid, ev2.uuid])))
      (freshUuids (addEventsToCatalogue s cat.uuid
        (freshUuids s cat.uuid [ev1.uuid, ev2.uuid])) cat.uuid
        [ev1.uuid, ev2.uuid]) = .ok [] := by
    rw [hfresh2]
    rfl
  refine ⟨_, _, _, _, addRun_eval hl hcty hmap, addRun_eval hl1 hcty hmap2,
    hfresh2, ?_, ?_, ?_⟩
  · rw [assigned_add_same, hfresh2, List.append_nil]
  · intro hnd
    rw [assigned_add_same]
    exact List.Nodup.append hnd (freshUuids_nodup s _ _)
      (fun a ha hb => ((mem_freshUuids hwf).mp hb).2 ha)
  · intro hempty
    have hfv : freshUuids s cat.uuid [ev1.uuid, ev2.uuid]
        = [ev1.uuid, ev2.uuid] := by
      unfold freshUuids
      simp only [getEventsAssigned_nil hempty, List.map_nil, List.not_mem_nil,
        decide_False, Bool.not_false, List.filter_true]
      rw [List.dedup_cons_of_not_mem (by simp [hne]),
        List.dedup_cons_of_not_mem (by simp), List.dedup_nil]
    rw [assigned_add_same, hfresh2, List.append_nil, assigned_add_same,
      hempty, hfv, List.nil_append]

/-- Witness for `addEvents_idempotent` at a concrete store: catalogue
`"c1"` with no events assigned, events `"e1"` and `"e2"`. -/
theorem addEvents_idempotent_witness :
    ∃ s1 added1 s2 added2,
      addEventsToCatalogueActionRun
        ⟨[⟨"c1", .catalogue, [], false⟩, ⟨"e1", .event, [], false⟩,
          ⟨"e2", .event, [], false⟩], []⟩ ["e1", "e2"] "c1"
        = .ok (s1, added1) ∧
      addEventsToCatalogueActionRun s1 ["e1", "e2"] "c1" = .ok (s2, added2) ∧
      added2 = [] ∧
      assignedEventUuids s2 "c1" = assignedEventUuids s1 "c1" ∧
      ((assignedEventUuids
          (⟨[⟨"c1", .catalogue, [], false⟩, ⟨"e1", .event, [], false⟩,
            ⟨"e2", .event, [], false⟩], []⟩ : Store) "c1").Nodup →
        (assignedEventUuids s1 "c1").Nodup) ∧
      (assignedEventUuids
          (⟨[⟨"c1", .catalogue, [], false⟩, ⟨"e1", .event, [], false⟩,
            ⟨"e2", .event, [], false⟩], []⟩ : Store) "c1" = [] →
        assignedEventUuids s2 "c1" = ["e1", "e2"]) :=
  addEvents_idempotent
    ⟨[⟨"c1", .catalogue, [], false⟩, ⟨"e1", .event, [], false⟩,
      ⟨"e2", .event, [], false⟩], []⟩
    ⟨"c1", .catalogue, [], false⟩ ⟨"e1", .event, [], false⟩
    ⟨"e2", .event, [], false⟩
    (by constructor
        · decide
        · intro l hl; simp at hl)
    (by decide) (by decide) (by decide) (by decide) (by decide) (by decide)
    (by decide)

/-- Translated from the `_DeletedEntity` dataclass (actions.py lines
264-270). -/
structure DeletedEntity where
  type : EntityType
  in_trash : Bool
  data : EntityDump
  linked_uuids : List String
  restored_entity : Option Entity
deriving DecidableEq, Repr

/-- The linked-entity uuids recorded by `DeletePermanentlyAction.action`
(actions.py lines 280-284): uuids of the assigned events of a catalogue,
or of the catalogues of an event. -/
def linkedUuids (s : Store) (e : Entity) : List String :=
  if e.etype = .catalogue then (getEventsAssigned s e.uuid).map Entity.uuid
  else (getCataloguesOfEvent s e.uuid).map Entity.uuid

/-- Translated from `DeletePermanentlyAction.action` (actions.py lines
279-293): for each uuid (looked up lazily against the current store, as
the Python `for entity in map(self._entity, self.uuids)` does), record
type, trash flag, full dump and linked uuids, then delete permanently. -/
def deletePermanentlyActionRun (s : Store) :
    List String → Except Exc (Store × List DeletedEntity)
  | [] => .ok (s, [])
  | u :: rest =>
    match entityByUuid s u with
    | .error ex => .error ex
    | .ok entity =>
      let de : DeletedEntity :=
        ⟨entity.etype, entity.in_trash, entity.dump, linkedUuids s entity, none⟩
      match deletePermanentlyActionRun (removePermanently s entity.uuid) rest with
      | .error ex => .error ex
      | .ok (s2, des) => .ok (s2, de :: des)

/-- The `for c in linked_entities: assert isinstance(c, _Catalogue);
add_events_to_catalogue(c, entity)` loop of the event branch of
`RestorePermanentlyDeletedAction.action` (actions.py lines 321-324). -/
def addEventToCatalogues (s : Store) (eu : String) :
    List Entity → Except Exc Store
  | [] => .ok s
  | c :: cs =>
    if c.etype == .catalogue then
      addEventToCatalogues (addEventsToCatalogue s c.uuid [eu]) eu cs
    else .error .assertionError

/-- Translated from `RestorePermanentlyDeletedAction.action` (actions.py
lines 300-324): recreate each recorded entity from its dump, move it back
to trash when it was recorded as trashed, then re-establish every recorded
link.  The Python code branches twice, once on `e.type` and once on the
class of the recreated entity; these always agree, so the model branches
once.  The `assert all(lambda x=x: ...)` of the catalogue branch is a
generator of (always truthy) lambdas and can never fire, so it is not
modelled. -/
def recreateEntity (s : Store) (de : DeletedEntity) : Store × Entity :=
  let p := createEntity s de.type de.data
  (if de.in_trash then setTrash p.1 p.2.uuid true else p.1, p.2)

/-- The loop of `RestorePermanentlyDeletedAction.action` around
`recreateEntity` (actions.py lines 300-324). -/
def restorePermanentlyDeletedActionRun (s : Store) :
    List DeletedEntity → Except Exc (Store × List DeletedEntity)
  | [] => .ok (s, [])
  | de :: rest =>
    let q := recreateEntity s de
    let de2 : DeletedEntity := { de with restored_entity := some q.2 }
    if de.type = .catalogue then
      match mapME (eventByUuid q.1) de.linked_uuids with
      | .error ex => .error ex
      | .ok linked =>
        match restorePermanentlyDeletedActionRun
            (addEventsToCatalogue q.1 q.2.uuid (linked.map Entity.uuid)) rest with
        | .error ex => .error ex
        | .ok (s3, des) => .ok (s3, de2 :: des)
    else
      match mapME (entityByUuid q.1) de.linked_uuids with
      | .error ex => .error ex
      | .ok linked =>
        match addEventToCatalogues q.1 q.2.uuid linked with
        | .error ex => .error ex
        | .ok s3 =>
          match restorePermanentlyDeletedActionRun s3 rest with
          | .error ex => .error ex
          | .ok (s4, des) => .ok (s4, de2 :: des)

theorem uuid_inj {l : List Entity} (hnd : (l.map Entity.uuid).Nodup) {x y : Entity}
    (hx : x ∈ l) (hy : y ∈ l) (h : x.uuid = y.uuid) : x = y := by
  have hf := filter_uuid_of_mem hnd hy
  have hx2 : x ∈ l.filter (fun z => z.uuid == y.uuid) :=
    List.mem_filter.mpr ⟨hx, by simp [h]⟩
  rw [hf] at hx2
  simpa using hx2

theorem nodup_removePermanently {s : Store} {u : String}
    (hnd : (s.entities.map Entity.uuid).Nodup) :
    ((removePermanently s u).entities.map Entity.uuid).Nodup := by
  have hs : ((removePermanently s u).entities.map Entity.uuid).Sublist
      (s.entities.map Entity.uuid) := (List.filter_sublist s.entities).map Entity.uuid
  exact hnd.sublist hs

theorem not_mem_removePermanently {s : Store} {u : String} :
    u ∉ (removePermanently s u).entities.map Entity.uuid := by
  intro hc
  obtain ⟨x, hx, hxu⟩ := List.mem_map.mp hc
  have := (List.mem_filter.mp hx).2
  simp [hxu] at this

theorem mem_removePermanently_of_ne {s : Store} {u : String} {x : Entity}
    (hx : x ∈ s.entities) (hne : x.uuid ≠ u) :
    x ∈ (removePermanently s u).entities :=
  List.mem_filter.mpr ⟨hx, by simp [hne]⟩

theorem mem_removePermanently_links {s : Store} {u : String} {l : String × String}
    (hl : l ∈ (removePermanently s u).links) :
    (l.1 == u) = false ∧ (l.2 == u) = false := by
  have := (List.mem_filter.mp hl).2
  exact ⟨by
      have h1 := Bool.and_elim_left this
      simpa using h1,
    by
      have h2 := Bool.and_elim_right this
      simpa using h2⟩

theorem setTrash_map_uuid (s : Store) (u : String) (b : Bool) :
    (setTrash s u b).entities.map Entity.uuid = s.entities.map Entity.uuid := by
  unfold setTrash
  rw [List.map_map]
  apply List.map_congr_left
  intro x _
  by_cases h : x.uuid == u <;> simp [Function.comp, h]

theorem linkedCat_mem_of_getCataloguesOfEvent {s : Store} {eu x : String} :
    x ∈ (getCataloguesOfEvent s eu).map Entity.uuid →
      x ∈ catalogueUuidsLinked s eu := by
  intro hx
  obtain ⟨c, hc, hcx⟩ := List.mem_map.mp hx
  have := (List.mem_filter.mp hc).2
  exact hcx ▸ of_decide_eq_true (Bool.and_elim_right this)

theorem getCataloguesOfEvent_of_linked {s : Store} {eu x : String}
    (hwf : WfStore s) (hx : x ∈ catalogueUuidsLinked s eu) :
    x ∈ (getCataloguesOfEvent s eu).map Entity.uuid := by
  obtain ⟨l, hl0, hlx⟩ := List.mem_map.mp hx
  have hl : l ∈ s.links := (List.mem_filter.mp hl0).1
  obtain ⟨⟨c, hmem, hty, huuid⟩, _⟩ := hwf.2 l hl
  refine List.mem_map.mpr ⟨c, List.mem_filter.mpr ⟨hmem, ?_⟩, hlx ▸ huuid⟩
  refine Bool.and_eq_true_iff.mpr ⟨by simp [hty], ?_⟩
  refine decide_eq_true ?_
  rw [huuid, hlx]
  exact hx

theorem addEventToCatalogues_ok {eu : String} :
    ∀ (cs : List Entity) (s : Store), (∀ c ∈ cs, c.etype = .catalogue) →
    ∃ s2, addEventToCatalogues s eu cs = .ok s2 ∧
      s2.entities = s.entities ∧
      s2.links = s.links ++ cs.map (fun c => (c.uuid, eu))
  | [], s, _ => ⟨s, rfl, rfl, (List.append_nil s.links).symm⟩
  | c :: cs, s, h => by
    have hc : (c.etype == EntityType.catalogue) = true := by
      simp [h c (List.mem_cons_self c cs)]
    obtain ⟨s2, h1, h2, h3⟩ := addEventToCatalogues_ok cs
      (addEventsToCatalogue s c.uuid [eu])
      (fun x hx => h x (List.mem_cons_of_mem c hx))
    refine ⟨s2, ?_, h2, ?_⟩
    · rw [addEventToCatalogues, hc]
      simp only [if_true]
      exact h1
    · rw [h3]
      unfold addEventsToCatalogue
      simp [List.append_assoc]

theorem restore_single_catalogue {s1 : Store} {de : DeletedEntity}
    {s2 : Store} {eN : Entity} {evs : List Entity}
    (hrec : recreateEntity s1 de = (s2, eN)) (hty : de.type = .catalogue)
    (hmap : mapME (eventByUuid s2) de.linked_uuids = .ok evs) :
    restorePermanentlyDeletedActionRun s1 [de]
      = .ok (addEventsToCatalogue s2 eN.uuid (evs.map Entity.uuid),
             [{ de with restored_entity := some eN }]) := by
  simp only [restorePermanentlyDeletedActionRun, hrec, hty, if_true, hmap]

theorem restore_single_event {s1 : Store} {de : DeletedEntity}
    {s2 s3 : Store} {eN : Entity} {linked : List Entity}
    (hrec : recreateEntity s1 de = (s2, eN)) (hty : de.type = .event)
    (hmap : mapME (entityByUuid s2) de.linked_uuids = .ok linked)
    (hadd : addEventToCatalogues s2 eN.uuid linked = .ok s3) :
    restorePermanentlyDeletedActionRun s1 [de]
      = .ok (s3, [{ de with restored_entity := some eN }]) := by
  have hne : ¬ de.type = EntityType.catalogue := by rw [hty]; decide
  simp only [restorePermanentlyDeletedActionRun, hrec, if_neg hne, hmap, hadd]

theorem recreate_bridge (s1 : Store) (u0 : String) (ty0 : EntityType)
    (a0 : List (String × AttrValue)) (b : Bool) (lu : List String)
    (hnd1 : (s1.entities.map Entity.uuid).Nodup)
    (hnotin : u0 ∉ s1.entities.map Entity.uuid) :
    ∃ s2, recreateEntity s1 ⟨ty0, b, ⟨u0, a0⟩, lu, none⟩ = (s2, ⟨u0, ty0, a0, false⟩) ∧
      (⟨u0, ty0, a0, b⟩ : Entity) ∈ s2.entities ∧
      (s2.entities.map Entity.uuid).Nodup ∧
      s2.links = s1.links ∧
      (∀ x ∈ s1.entities, x.uuid ≠ u0 → x ∈ s2.entities) := by
  have hndapp : ((s1.entities ++ [(⟨u0, ty0, a0, false⟩ : Entity)]).map Entity.uuid).Nodup := by
    rw [List.map_append, List.nodup_append]
    refine ⟨hnd1, List.nodup_singleton _, ?_⟩
    intro a ha hb
    rw [List.map_singleton, List.mem_singleton] at hb
    have hb2 : a = u0 := hb
    exact hnotin (hb2 ▸ ha)
  cases b with
  | false =>
    refine ⟨{ s1 with entities := s1.entities ++ [⟨u0, ty0, a0, false⟩] },
      by simp [recreateEntity, createEntity], ?_, hndapp, rfl, ?_⟩
    · exact List.mem_append_right _ (List.mem_singleton_self _)
    · intro x hx _
      exact List.mem_append_left _ hx
  | true =>
    refine ⟨setTrash { s1 with entities := s1.entities ++ [⟨u0, ty0, a0, false⟩] } u0 true,
      by simp [recreateEntity, createEntity], ?_, ?_, rfl, ?_⟩
    · refine List.mem_map.mpr ⟨⟨u0, ty0, a0, false⟩,
        List.mem_append_right _ (List.mem_singleton_self _), ?_⟩
      simp
    · rw [setTrash_map_uuid]
      exact hndapp
    · intro x hx hne
      refine List.mem_map.mpr ⟨x, List.mem_append_left _ hx, ?_⟩
      simp [hne]

/-- C4: `DeletePermanentlyAction` records, per entity and before deleting,
its type, its trash flag, a full attribute dump and the uuids of all
linked entities; `RestorePermanentlyDeletedAction` on that record
recreates the entity with the same attributes, restores its trash state,
and re-establishes every recorded link. -/
theorem deletePermanently_restore_roundtrip (s : Store) (e : Entity)
    (hwf : WfStore s) (hmem : e ∈ s.entities) :
    ∃ sF,
      deletePermanentlyActionRun s [e.uuid]
        = .ok (removePermanently s e.uuid,
               [⟨e.etype, e.in_trash, e.dump, linkedUuids s e, none⟩]) ∧
      restorePermanentlyDeletedActionRun (removePermanently s e.uuid)
          [⟨e.etype, e.in_trash, e.dump, linkedUuids s e, none⟩]
        = .ok (sF, [⟨e.etype, e.in_trash, e.dump, linkedUuids s e,
                     some ⟨e.uuid, e.etype, e.attrs, false⟩⟩]) ∧
      entityByUuid sF e.uuid = .ok e ∧
      (e.etype = .catalogue →
        ∀ x, x ∈ assignedEventUuids sF e.uuid ↔ x ∈ assignedEventUuids s e.uuid) ∧
      (e.etype = .event →
        ∀ x, x ∈ catalogueUuidsLinked sF e.uuid ↔ x ∈ catalogueUuidsLinked s e.uuid) := by
  obtain ⟨u0, ty0, a0, tr0⟩ := e
  have hnd := hwf.1
  have hl : entityByUuid s u0 = .ok ⟨u0, ty0, a0, tr0⟩ := entityByUuid_of_mem hnd hmem
  have hdel : deletePermanentlyActionRun s [u0]
      = .ok (removePermanently s u0,
             [⟨ty0, tr0, ⟨u0, a0⟩, linkedUuids s ⟨u0, ty0, a0, tr0⟩, none⟩]) := by
    simp only [deletePermanentlyActionRun, hl, Entity.dump]
  have hnd1 := nodup_removePermanently (u := u0) hnd
  have hni := not_mem_removePermanently (s := s) (u := u0)
  obtain ⟨s2, hrec, hmem2, hnd2, hlk2, hother⟩ :=
    recreate_bridge (removePermanently s u0) u0 ty0 a0 tr0
      (linkedUuids s ⟨u0, ty0, a0, tr0⟩) hnd1 hni
  cases ty0 with
  | catalogue =>
    have hlsub : ∀ u ∈ (getEventsAssigned s u0).map Entity.uuid,
        ∃ ev ∈ s2.entities, ev.etype = .event ∧ ev.uuid = u := by
      intro u hu
      have ha : u ∈ assignedEventUuids s u0 := assigned_mem_of_getEventsAssigned hu
      obtain ⟨l, hl0, hl2⟩ := List.mem_map.mp ha
      have hlmem : l ∈ s.links := (List.mem_filter.mp hl0).1
      obtain ⟨_, ⟨ev, hevm, hevty, hevu⟩⟩ := hwf.2 l hlmem
      have hevu2 : ev.uuid = u := by rw [hevu, hl2]
      have hne : ev.uuid ≠ u0 := by
        intro hc
        have heq : ev = ⟨u0, .catalogue, a0, tr0⟩ :=
          uuid_inj hnd hevm hmem (by rw [hc])
        rw [heq] at hevty
        simp at hevty
      exact ⟨ev, hother ev (mem_removePermanently_of_ne hevm hne) hne, hevty, hevu2⟩
    obtain ⟨evs, hmap, hmapu⟩ := mapME_ok_of_events hnd2 hlsub
    have hrest := restore_single_catalogue hrec rfl hmap
    refine ⟨addEventsToCatalogue s2 u0 (evs.map Entity.uuid), hdel, hrest, ?_, ?_, ?_⟩
    · exact entityByUuid_of_mem hnd2 hmem2
    · intro _ x
      have hz : assignedEventUuids s2 u0 = [] := by
        unfold assignedEventUuids
        rw [hlk2]
        have hA : (removePermanently s u0).links.filter (fun l => l.1 == u0) = [] := by
          rw [List.filter_eq_nil_iff]
          intro l hlm
          rw [(mem_removePermanently_links hlm).1]
          simp
        rw [hA]
        rfl
      have hassigned : assignedEventUuids
          (addEventsToCatalogue s2 u0 (evs.map Entity.uuid)) u0
          = (getEventsAssigned s u0).map Entity.uuid := by
        rw [assigned_add_same, hz, hmapu, List.nil_append]
      rw [hassigned]
      exact ⟨fun h => assigned_mem_of_getEventsAssigned h,
        fun h => getEventsAssigned_of_assigned hwf h⟩
    · intro habs
      simp at habs
  | event =>
    have hlsubC : ∀ u ∈ (getCataloguesOfEvent s u0).map Entity.uuid,
        ∃ c ∈ s2.entities, c.etype = .catalogue ∧ c.uuid = u := by
      intro u hu
      have ha : u ∈ catalogueUuidsLinked s u0 := linkedCat_mem_of_getCataloguesOfEvent hu
      obtain ⟨l, hl0, hl1⟩ := List.mem_map.mp ha
      have hlmem : l ∈ s.links := (List.mem_filter.mp hl0).1
      obtain ⟨⟨c, hcm, hcty, hcu⟩, _⟩ := hwf.2 l hlmem
      have hcu2 : c.uuid = u := by rw [hcu, hl1]
      have hne : c.uuid ≠ u0 := by
        intro hc
        have heq : c = ⟨u0, .event, a0, tr0⟩ := uuid_inj hnd hcm hmem (by rw [hc])
        rw [heq] at hcty
        simp at hcty
      exact ⟨c, hother c (mem_removePermanently_of_ne hcm hne) hne, hcty, hcu2⟩
    obtain ⟨cs, hmap, hmapu, hcstys⟩ := mapME_entityByUuid_ok hnd2 hlsubC
    obtain ⟨s3, hadd, hents3, hlinks3⟩ := @addEventToCatalogues_ok u0 cs s2 hcstys
    have hrest := restore_single_event hrec rfl hmap hadd
    have hcand : entityCandidates s3 u0 = entityCandidates s2 u0 := by
      unfold entityCandidates getCataloguesByUuid getEventsByUuid
      rw [hents3]
    refine ⟨s3, hdel, hrest, ?_, ?_, ?_⟩
    · show entityByUuid s3 u0 = _
      unfold entityByUuid
      rw [hcand]
      exact entityByUuid_of_mem hnd2 hmem2
    · intro habs
      simp at habs
    · intro _ x
      have hclinked : catalogueUuidsLinked s3 u0
          = (getCataloguesOfEvent s u0).map Entity.uuid := by
        unfold catalogueUuidsLinked
        rw [hlinks3, hlk2, List.filter_append, List.map_append]
        have hA : (removePermanently s u0).links.filter (fun l => l.2 == u0) = [] := by
          rw [List.filter_eq_nil_iff]
          intro l hlm
          rw [(mem_removePermanently_links hlm).2]
          simp
        have hB : (cs.map (fun c => (c.uuid, u0))).filter (fun l => l.2 == u0)
            = cs.map (fun c => (c.uuid, u0)) := by
          rw [List.filter_eq_self]
          intro l hlm
          obtain ⟨c, _, rfl⟩ := List.mem_map.mp hlm
          simp
        rw [hA, hB, List.map_map]
        rw [List.map_nil, List.nil_append]
        rw [show ((fun l => l.1) ∘ (fun c : Entity => (c.uuid, u0))) = Entity.uuid
          from rfl]
        exact hmapu
      rw [hclinked]
      exact ⟨fun h => linkedCat_mem_of_getCataloguesOfEvent h,
        fun h => getCataloguesOfEvent_of_linked hwf h⟩

/-- A small concrete store used by witnesses: catalogue `"c1"` with one
assigned event `"e1"`. -/
def sampleStore : Store :=
  ⟨[⟨"c1", .catalogue, [("name", AttrValue.str "cat")], false⟩,
    ⟨"e1", .event, [], false⟩], [("c1", "e1")]⟩

/-- The catalogue entity of `sampleStore`. -/
def sampleCat : Entity := ⟨"c1", .catalogue, [("name", AttrValue.str "cat")], false⟩

/-- Witness for `deletePermanently_restore_roundtrip` at `sampleStore`. -/
theorem deletePermanently_restore_roundtrip_witness :
    ∃ sF,
      deletePermanentlyActionRun sampleStore [sampleCat.uuid]
        = .ok (removePermanently sampleStore sampleCat.uuid,
               [⟨sampleCat.etype, sampleCat.in_trash, sampleCat.dump,
                 linkedUuids sampleStore sampleCat, none⟩]) ∧
      restorePermanentlyDeletedActionRun (removePermanently sampleStore sampleCat.uuid)
          [⟨sampleCat.etype, sampleCat.in_trash, sampleCat.dump,
            linkedUuids sampleStore sampleCat, none⟩]
        = .ok (sF, [⟨sampleCat.etype, sampleCat.in_trash, sampleCat.dump,
                     linkedUuids sampleStore sampleCat,
                     some ⟨sampleCat.uuid, sampleCat.etype, sampleCat.attrs, false⟩⟩]) ∧
      entityByUuid sF sampleCat.uuid = .ok sampleCat ∧
      (sampleCat.etype = .catalogue →
        ∀ x, x ∈ assignedEventUuids sF sampleCat.uuid ↔
          x ∈ assignedEventUuids sampleStore sampleCat.uuid) ∧
      (sampleCat.etype = .event →
        ∀ x, x ∈ catalogueUuidsLinked sF sampleCat.uuid ↔
          x ∈ catalogueUuidsLinked sampleStore sampleCat.uuid) :=
  deletePermanently_restore_roundtrip sampleStore sampleCat
    (by constructor
        · decide
        · decide)
    (by decide)

/-- A completed Action as seen by `TscatDriver._worker_action_done`
(driver.py lines 46-74); each constructor carries the output fields the
handler reads. -/
inductive DoneAction where
  | getCatalogues (catalogues : List Entity)
  | getCatalogue (uuid : String) (events : List Entity)
  | createEntity (entity : Entity)
  | removeEntities (uuids : List String)
  | setAttribute (name : String) (entities : List Entity)
  | deleteAttribute (name : String) (entities : List Entity)
  | importCanonicalizedDict (catalogues : List Entity)
  | moveToTrash (uuids : List String) (entities : List Entity)
  | restoreFromTrash (uuids : List String) (entities : List Entity)
  | deletePermanently (uuids : List String) (deleted : List DeletedEntity)
  | restorePermanentlyDeleted (deleted : List DeletedEntity)
deriving DecidableEq

/-- The driver's `_entity_cache` dictionary (uuid to last-known entity). -/
abbrev EntityCache := List (String × Entity)

/-- Python `self._entity_cache[e.uuid] = e`. -/
def cachePut (c : EntityCache) (e : Entity) : EntityCache := (e.uuid, e) :: c

/-- Python `if uuid in self._entity_cache: del self._entity_cache[uuid]`. -/
def cacheDel (c : EntityCache) (u : String) : EntityCache :=
  c.filter (fun kv => !(kv.1 == u))

/-- Python `self._entity_cache[uuid]` (`entity_from_uuid`; raises KeyError,
modelled by `none`, when absent). -/
def cacheGet (c : EntityCache) (u : String) : Option Entity := List.lookup u c

/-- Translated from `TscatDriver._worker_action_done` (driver.py lines
46-74): the isinstance chain that updates the entity cache.  Action types
with no branch (`MoveToTrashAction`, `RestoreFromTrashAction`,
`DeletePermanentlyAction`, `RestorePermanentlyDeletedAction`) fall through
and leave the cache unchanged. -/
def workerActionDone (cache : EntityCache) : DoneAction → EntityCache
  | .getCatalogues cats => cats.foldl cachePut cache
  | .getCatalogue _ events => events.foldl cachePut cache
  | .createEntity e => cachePut cache e
  | .removeEntities uuids => uuids.foldl cacheDel cache
  | .setAttribute _ es => es.foldl cachePut cache
  | .deleteAttribute _ es => es.foldl cachePut cache
  | .importCanonicalizedDict cs => cs.foldl cachePut cache
  | .moveToTrash _ _ => cache
  | .restoreFromTrash _ _ => cache
  | .deletePermanently _ _ => cache
  | .restorePermanentlyDeleted _ => cache

theorem cacheGet_foldl_put_notin {t : List Entity} {u : String} :
    ∀ c : EntityCache, u ∉ t.map Entity.uuid →
      cacheGet (t.foldl cachePut c) u = cacheGet c u := by
  induction t with
  | nil => intro c _; rfl
  | cons a t ih =>
    intro c h
    rw [List.map_cons, List.mem_cons] at h
    push_neg at h
    have h2 := ih (cachePut c a) h.2
    rw [List.foldl_cons, h2]
    unfold cacheGet cachePut
    have hbeq : (u == a.uuid) = false := beq_eq_false_iff_ne.mpr h.1
    rw [List.lookup_cons, hbeq]

theorem cacheGet_foldl_put {es : List Entity} {e : Entity} :
    ∀ c : EntityCache, (es.map Entity.uuid).Nodup → e ∈ es →
      cacheGet (es.foldl cachePut c) e.uuid = some e := by
  induction es with
  | nil => intro c _ h; simp at h
  | cons a t ih =>
    intro c hnd hmem
    rw [List.map_cons, List.nodup_cons] at hnd
    rcases List.mem_cons.mp hmem with ha | ht
    · subst ha
      rw [List.foldl_cons, cacheGet_foldl_put_notin (cachePut c e) hnd.1]
      unfold cacheGet cachePut
      rw [List.lookup_cons, beq_self_eq_true e.uuid]
    · rw [List.foldl_cons]
      exact ih (cachePut c a) hnd.2 ht

/-- C1 (amended): after a completed `CreateEntityAction`,
`SetAttributeAction` or `DeleteAttributeAction` whose output mentions
entity `e`, the driver's cache returns exactly `e` for `e.uuid`
(for the mutation actions, provided the output entities carry distinct
uuids, as they do when the action's uuid list is duplicate-free). -/
theorem cache_consistency_create_set_delete (cache : EntityCache)
    (e : Entity) (es : List Entity) (name : String) :
    cacheGet (workerActionDone cache (.createEntity e)) e.uuid = some e ∧
    ((es.map Entity.uuid).Nodup → e ∈ es →
      cacheGet (workerActionDone cache (.setAttribute name es)) e.uuid = some e) ∧
    ((es.map Entity.uuid).Nodup → e ∈ es →
      cacheGet (workerActionDone cache (.deleteAttribute name es)) e.uuid = some e) := by
  refine ⟨?_, ?_, ?_⟩
  · unfold workerActionDone cacheGet cachePut
    rw [List.lookup_cons, beq_self_eq_true e.uuid]
  · intro hnd hmem
    exact cacheGet_foldl_put cache hnd hmem
  · intro hnd hmem
    exact cacheGet_foldl_put cache hnd hmem

/-- Witness for `cache_consistency_create_set_delete` at a concrete cache
and entity list. -/
theorem cache_consistency_create_set_delete_witness :
    cacheGet (workerActionDone []
        (.createEntity ⟨"c1", .catalogue, [], false⟩)) "c1"
      = some ⟨"c1", .catalogue, [], false⟩ ∧
    ((([⟨"c1", .catalogue, [], false⟩] : List Entity).map Entity.uuid).Nodup →
      (⟨"c1", .catalogue, [], false⟩ : Entity) ∈
        ([⟨"c1", .catalogue, [], false⟩] : List Entity) →
      cacheGet (workerActionDone []
        (.setAttribute "name" [⟨"c1", .catalogue, [], false⟩])) "c1"
        = some ⟨"c1", .catalogue, [], false⟩) ∧
    ((([⟨"c1", .catalogue, [], false⟩] : List Entity).map Entity.uuid).Nodup →
      (⟨"c1", .catalogue, [], false⟩ : Entity) ∈
        ([⟨"c1", .catalogue, [], false⟩] : List Entity) →
      cacheGet (workerActionDone []
        (.deleteAttribute "name" [⟨"c1", .catalogue, [], false⟩])) "c1"
        = some ⟨"c1", .catalogue, [], false⟩) :=
  cache_consistency_create_set_delete [] ⟨"c1", .catalogue, [], false⟩
    [⟨"c1", .catalogue, [], false⟩] "name"

/-- C1 counterexample: `_worker_action_done` has no branch for
`RestoreFromTrashAction`, so after a completed restore whose output entity
for uuid `"c1"` is the un-trashed snapshot, the cache still returns the
stale trashed snapshot instead of the action's output entity. -/
theorem cache_restore_stale_counterexample :
    cacheGet (workerActionDone [("c1", ⟨"c1", .catalogue, [], true⟩)]
        (.restoreFromTrash ["c1"] [⟨"c1", .catalogue, [], false⟩])) "c1"
      ≠ some ⟨"c1", .catalogue, [], false⟩ ∧
    cacheGet (workerActionDone [("c1", ⟨"c1", .catalogue, [], true⟩)]
        (.restoreFromTrash ["c1"] [⟨"c1", .catalogue, [], false⟩])) "c1"
      = some ⟨"c1", .catalogue, [], true⟩ := by
  constructor
  · decide
  · decide

/-- The canonicalized neutral dict produced by an importer; its internal
structure is irrelevant to the claims under study. -/
structure ImportDict where
  payload : List (String × AttrValue)
deriving DecidableEq, Repr

/-- Python `try: body except Exception as e: handler(e)` wrapped around the
whole body of an action's `action()` method. -/
def tryExcept {α : Type} (body : Except Exc α) (handler : Exc → Except Exc α) :
    Except Exc α :=
  match body with
  | .ok a => .ok a
  | .error ex => handler ex

/-- Translated from `CanonicalizeImportAction.action` (actions.py lines
192-196): runs `importer(filename)` under try/except; on success the dict
lands in the `import_dict` field, on failure the exception is stored in
the `result` field.  The returned pair models the two fields after
execution; an `Except.error` outcome would model an exception escaping
`action()`. -/
def canonicalizeImportActionRun (importer : String → Except Exc ImportDict)
    (filename : String) : Except Exc (Option ImportDict × Option Exc) :=
  tryExcept
    (match importer filename with
     | .error ex => .error ex
     | .ok d => .ok (some d, none))
    (fun e => .ok (none, some e))

/-- Translated from `ExportAction.action` (actions.py lines 230-235): the
catalogue lookups and the exporter call both run inside the try/except;
the exporter's returned optional exception is stored in `result`, and a
raised exception is caught and stored in `result` as well. -/
def exportActionRun (s : Store)
    (exporter : String → List Entity → Except Exc (Option Exc))
    (filename : String) (catalogue_uuids : List String) :
    Except Exc (Option Exc) :=
  tryExcept
    (match mapME (entityByUuid s) catalogue_uuids with
     | .error ex => .error ex
     | .ok catalogues =>
       match exporter filename catalogues with
       | .error ex => .error ex
       | .ok r => .ok r)
    (fun e => .ok (some e))

/-- C6: for the file-I/O-bound actions (`CanonicalizeImportAction`,
`ExportAction`) execution never propagates an exception out of `action()`
(both runs always return `Except.ok`), and on failure the error value is
reported in the action's `result` field. -/
theorem importExport_exceptions_captured
    (importer : String → Except Exc ImportDict) (filename : String)
    (s : Store) (exporter : String → List Entity → Except Exc (Option Exc))
    (fn2 : String) (uuids : List String) :
    (∃ st, canonicalizeImportActionRun importer filename = .ok st ∧
      ((∃ d, importer filename = .ok d ∧ st = (some d, none)) ∨
       (∃ ex, importer filename = .error ex ∧ st = (none, some ex)))) ∧
    (∃ r, exportActionRun s exporter fn2 uuids = .ok r ∧
      ((∃ ex, mapME (entityByUuid s) uuids = .error ex ∧ r = some ex) ∨
       (∃ cats ex, mapME (entityByUuid s) uuids = .ok cats ∧
         exporter fn2 cats = .error ex ∧ r = some ex) ∨
       (∃ cats res, mapME (entityByUuid s) uuids = .ok cats ∧
         exporter fn2 cats = .ok res ∧ r = res))) := by
  constructor
  · rcases h : importer filename with ex | d
    · exact ⟨(none, some ex), by simp [canonicalizeImportActionRun, tryExcept, h],
        .inr ⟨ex, by simp [h], rfl⟩⟩
    · exact ⟨(some d, none), by simp [canonicalizeImportActionRun, tryExcept, h],
        .inl ⟨d, by simp [h], rfl⟩⟩
  · rcases h1 : mapME (entityByUuid s) uuids with ex | cats
    · exact ⟨some ex, by simp [exportActionRun, tryExcept, h1], .inl ⟨ex, by simp [h1], rfl⟩⟩
    · rcases h2 : exporter fn2 cats with ex | res
      · exact ⟨some ex, by simp [exportActionRun, tryExcept, h1, h2],
          .inr (.inl ⟨cats, ex, by simp [h1], by simp [h2], rfl⟩)⟩
      · exact ⟨res, by simp [exportActionRun, tryExcept, h1, h2],
          .inr (.inr ⟨cats, res, by simp [h1], by simp [h2], rfl⟩)⟩

/-- The selection state of `AppState` (state.py lines 11-16). -/
structure SelectState where
  selected : List String
  type : EntityType
  selected_catalogues : List String
  catalogue_path : List String
deriving DecidableEq, Repr

/-- The two `AppState.updated` action kinds used by the undo commands. -/
inductive UpdateKind where
  | active_select
  | passive_select
deriving DecidableEq, Repr

/-- Translated from `AppState.updated` (state.py lines 46-59): only an
`active_select` with a new uuid list mutates the selection state, and the
selected-catalogue list follows when the new type is Catalogue.  The
signal emission and logging are not modelled. -/
def appStateUpdated (st : SelectState) (action : UpdateKind) (ty : EntityType)
    (uuids : List String) : SelectState :=
  match action with
  | .active_select =>
    if uuids ≠ st.selected then
      let st1 := { st with selected := uuids, type := ty }
      if ty = .catalogue then { st1 with selected_catalogues := uuids } else st1
    else st
  | .passive_select => st

/-- Translated from `AppState.set_catalogue_path` (state.py lines 61-62). -/
def setCataloguePath (st : SelectState) (p : List String) : SelectState :=
  { st with catalogue_path := p }

/-- Translated from `_EntityBased._select` (undo.py lines 32-40): the type
defaults to the snapshot's type; an Event selection first re-broadcasts
the snapshot's selected catalogues passively, then the active selection is
applied and the snapshot's catalogue path restored. -/
def entitySelect (snapshot : SelectState) (st : SelectState)
    (uuids : List String) (tyOpt : Option EntityType) : SelectState :=
  let ty := tyOpt.getD snapshot.type
  let st0 := if ty = .event then
      appStateUpdated st .passive_select .catalogue snapshot.selected_catalogues
    else st
  let st1 := appStateUpdated st0 .active_select ty uuids
  setCataloguePath st1 snapshot.catalogue_path

/-- One attribute value of the entity's dynamic bag
(Python `entity.__dict__[name]`; `none` models the KeyError case). -/
def lookupAttr (e : Entity) (name : String) : Option AttrValue :=
  ((e.attrs.filter (fun kv => kv.1 == name)).head?).map Prod.snd

/-- Python `[entity.__dict__[name] for entity in
tscat_model.entities_from_uuids(uuids)]`: reads each entity from the
driver cache and its attribute value; missing entries raise KeyError. -/
def mapMCacheAttr (cache : EntityCache) (name : String) :
    List String → Except Exc (List AttrValue)
  | [] => .ok []
  | u :: us =>
    match cacheGet cache u with
    | none => .error .keyError
    | some e =>
      match lookupAttr e name with
      | none => .error .keyError
      | some v =>
        match mapMCacheAttr cache name us with
        | .error ex => .error ex
        | .ok vs => .ok (v :: vs)

/-- The inputs of a `SetAttributeAction` submission. -/
structure SetAttributeReq where
  uuids : List String
  name : String
  values : List AttrValue
deriving DecidableEq, Repr

/-- The `SetAttributeValue` undo command (undo.py lines 128-137): the
selection snapshot deep-copied at construction, the attribute name, the
previous values and the new value. -/
structure SetAttributeValueCmd where
  snapshot : SelectState
  name : String
  previous_values : List AttrValue
  new_value : AttrValue
deriving DecidableEq, Repr

/-- Translated from `SetAttributeValue.__init__` (undo.py lines 128-137):
snapshot the selection state (`state.select_state()` returns a deep copy,
a plain value here) and record the attribute's previous values read
through the driver cache. -/
def mkSetAttributeValue (state : SelectState) (cache : EntityCache)
    (name : String) (value : AttrValue) : Except Exc SetAttributeValueCmd :=
  match mapMCacheAttr cache name state.selected with
  | .error ex => .error ex
  | .ok prev => .ok ⟨state, name, prev, value⟩

/-- Translated from `SetAttributeValue._redo` (undo.py lines 139-144):
submit the set-attribute request built from the snapshot and restore the
snapshot selection. -/
def setAttributeValueRedo (cmd : SetAttributeValueCmd) (st : SelectState) :
    SetAttributeReq × SelectState :=
  (⟨cmd.snapshot.selected, cmd.name,
    List.replicate cmd.snapshot.selected.length cmd.new_value⟩,
   entitySelect cmd.snapshot st cmd.snapshot.selected none)

/-- Translated from `SetAttributeValue._undo` (undo.py lines 146-150):
submit the inverse set-attribute request (previous values) and restore the
snapshot selection. -/
def setAttributeValueUndo (cmd : SetAttributeValueCmd) (st : SelectState) :
    SetAttributeReq × SelectState :=
  (⟨cmd.snapshot.selected, cmd.name, cmd.previous_values⟩,
   entitySelect cmd.snapshot st cmd.snapshot.selected none)

theorem appStateUpdated_active_selected (st : SelectState) (ty : EntityType)
    (uuids : List String) :
    (appStateUpdated st .active_select ty uuids).selected = uuids := by
  by_cases h : uuids ≠ st.selected
  · by_cases hty : ty = EntityType.catalogue <;> simp [appStateUpdated, h, hty]
  · push_neg at h
    simp [appStateUpdated, h]

/-- C9: `SetAttributeValue` captures a (deep-copied) selection snapshot at
construction, and its `undo()` restores the selection to exactly the
snapshot's selection — here `[catalogue_uuid]` — and the snapshot's
catalogue path, whatever selection state `st` holds at undo time. -/
theorem undo_restores_selection (state0 : SelectState) (cache : EntityCache)
    (name : String) (value : AttrValue) (cmd : SetAttributeValueCmd)
    (catalogue_uuid : String) (st : SelectState)
    (hmk : mkSetAttributeValue state0 cache name value = .ok cmd)
    (hsel : state0.selected = [catalogue_uuid]) :
    cmd.snapshot = state0 ∧
    (setAttributeValueUndo cmd st).2.selected = [catalogue_uuid] ∧
    (setAttributeValueUndo cmd st).2.catalogue_path = state0.catalogue_path := by
  have hcmd : cmd.snapshot = state0 := by
    unfold mkSetAttributeValue at hmk
    rcases h : mapMCacheAttr cache name state0.selected with ex | prev
    · rw [h] at hmk
      simp at hmk
    · rw [h] at hmk
      injection hmk with h2
      rw [← h2]
  refine ⟨hcmd, ?_, ?_⟩
  · show (setCataloguePath (appStateUpdated _ .active_select _ _) _).selected = _
    rw [show ∀ (x : SelectState) (p : List String),
      (setCataloguePath x p).selected = x.selected from fun _ _ => rfl]
    rw [appStateUpdated_active_selected, hcmd, hsel]
  · show (setCataloguePath _ _).catalogue_path = _
    rw [show ∀ (x : SelectState) (p : List String),
      (setCataloguePath x p).catalogue_path = p from fun _ _ => rfl]
    rw [hcmd]

/-- Witness for `undo_restores_selection`: the snapshot selects `"cat-1"`,
the selection at undo time is something unrelated. -/
theorem undo_restores_selection_witness :
    (⟨⟨["cat-1"], .catalogue, ["cat-1"], []⟩, "name",
        [AttrValue.str "old"], AttrValue.str "X"⟩ : SetAttributeValueCmd).snapshot
      = ⟨["cat-1"], .catalogue, ["cat-1"], []⟩ ∧
    (setAttributeValueUndo
      ⟨⟨["cat-1"], .catalogue, ["cat-1"], []⟩, "name",
        [AttrValue.str "old"], AttrValue.str "X"⟩
      ⟨["other"], .event, [], ["p"]⟩).2.selected = ["cat-1"] ∧
    (setAttributeValueUndo
      ⟨⟨["cat-1"], .catalogue, ["cat-1"], []⟩, "name",
        [AttrValue.str "old"], AttrValue.str "X"⟩
      ⟨["other"], .event, [], ["p"]⟩).2.catalogue_path = [] :=
  undo_restores_selection
    ⟨["cat-1"], .catalogue, ["cat-1"], []⟩
    [("cat-1", ⟨"cat-1", .catalogue, [("name", AttrValue.str "old")], false⟩)]
    "name" (AttrValue.str "X")
    ⟨⟨["cat-1"], .catalogue, ["cat-1"], []⟩, "name",
      [AttrValue.str "old"], AttrValue.str "X"⟩
    "cat-1" ⟨["other"], .event, [], ["p"]⟩
    (by rfl) (by decide)

/-- One Python `Node` object (nodes.py lines 10-44): a parent
back-reference and an ordered children list, represented in an object heap
indexed by numeric identity. -/
structure NodeObj where
  parent : Option Nat
  children : List Nat
deriving DecidableEq, Repr

/-- The object heap of `Node`s: node `i` lives at index `i`. -/
abbrev NodeHeap := List NodeObj

def getNode : NodeHeap → Nat → NodeObj
  | [], _ => ⟨none, []⟩
  | n :: _, 0 => n
  | _ :: t, i + 1 => getNode t i

def setNode (h : NodeHeap) (i : Nat) (n : NodeObj) : NodeHeap := h.set i n

/-- The `Node.parent` setter (nodes.py lines 19-23): a reparenting attempt
is logged (a `print`, not modelled), and the assignment always happens. -/
def setParent (h : NodeHeap) (c : Nat) (p : Option Nat) : NodeHeap :=
  setNode h c { getNode h c with parent := p }

/-- `Node.append_child` (nodes.py lines 38-40). -/
def appendChild (h : NodeHeap) (p c : Nat) : NodeHeap :=
  setParent (setNode h p { getNode h p with children := (getNode h p).children ++ [c] })
    c (some p)

/-- `Node.append_children` (nodes.py lines 33-36): extend the children
list, then set each new child's parent. -/
def appendChildren (h : NodeHeap) (p : Nat) (cs : List Nat) : NodeHeap :=
  cs.foldl (fun acc c => setParent acc c (some p))
    (setNode h p { getNode h p with children := (getNode h p).children ++ cs })

/-- `Node.set_children` (nodes.py lines 29-31): clear the children list
(the former children's parent pointers are left untouched) and append. -/
def setChildren (h : NodeHeap) (p : Nat) (cs : List Nat) : NodeHeap :=
  appendChildren (setNode h p { getNode h p with children := [] }) p cs

/-- `Node.remove_child` (nodes.py lines 42-44): Python `list.remove`
raises `ValueError` when the child is absent (modelled by `none`); the
detached child's parent reference is cleared. -/
def removeChild (h : NodeHeap) (p c : Nat) : Option NodeHeap :=
  if c ∈ (getNode h p).children then
    some (setParent
      (setNode h p { getNode h p with children := (getNode h p).children.erase c })
      c none)
  else none

/-- Total number of child slots referring to `c` anywhere in the heap. -/
def occCount : NodeHeap → Nat → Nat
  | [], _ => 0
  | n :: t, c => n.children.count c + occCount t c

/-- The invariant of the claim: every node appearing in a children list
points back at the (then necessarily unique) parent whose list holds it,
and appears in exactly one child slot overall. -/
def WfHeap (h : NodeHeap) : Prop :=
  ∀ p, p < h.length → ∀ c ∈ (getNode h p).children,
    c < h.length ∧ (getNode h c).parent = some p ∧ occCount h c = 1

/-- One Node-tree mutation of the claim. -/
inductive TreeOp where
  | append1 (p c : Nat)
  | appendMany (p : Nat) (cs : List Nat)
  | setCs (p : Nat) (cs : List Nat)
  | remove (p c : Nat)
deriving DecidableEq, Repr

def applyTreeOp (h : NodeHeap) : TreeOp → Option NodeHeap
  | .append1 p c => some (appendChild h p c)
  | .appendMany p cs => some (appendChildren h p cs)
  | .setCs p cs => some (setChildren h p cs)
  | .remove p c => removeChild h p c

/-- Side conditions of the amended claim: appended children exist, are
detached (for `set_children`: detached except for slots inside the very
list being replaced), differ from the parent and are duplicate-free, and
removal targets an actual child other than the parent itself. -/
def TreeOpOk (h : NodeHeap) : TreeOp → Prop
  | .append1 p c => p < h.length ∧ c < h.length ∧ c ≠ p ∧ occCount h c = 0
  | .appendMany p cs => p < h.length ∧ cs.Nodup ∧
      ∀ c ∈ cs, c < h.length ∧ c ≠ p ∧ occCount h c = 0
  | .setCs p cs => p < h.length ∧ cs.Nodup ∧
      ∀ c ∈ cs, c < h.length ∧ c ≠ p ∧
        occCount h c = (getNode h p).children.count c
  | .remove p c => p < h.length ∧ c ≠ p ∧ c ∈ (getNode h p).children

theorem length_setNode (h : NodeHeap) (i : Nat) (n : NodeObj) :
    (setNode h i n).length = h.length := List.length_set h i n

theorem getNode_set_self : ∀ (h : NodeHeap) (i : Nat) (n : NodeObj),
    i < h.length → getNode (setNode h i n) i = n
  | [], i, n, hi => absurd hi (by simp)
  | _ :: _, 0, _, _ => rfl
  | _ :: t, i + 1, n, hi => getNode_set_self t i n (by simpa using hi)

theorem getNode_set_ne : ∀ (h : NodeHeap) (i j : Nat) (n : NodeObj),
    i ≠ j → getNode (setNode h i n) j = getNode h j
  | [], _, _, _, _ => rfl
  | _ :: _, 0, 0, _, hne => absurd rfl hne
  | _ :: _, 0, _ + 1, _, _ => rfl
  | _ :: _, _ + 1, 0, _, _ => rfl
  | _ :: t, i + 1, j + 1, n, hne =>
    getNode_set_ne t i j n (fun hc => hne (by rw [hc]))

theorem occCount_set {c : Nat} :
    ∀ (h : NodeHeap) (i : Nat) (n : NodeObj), i < h.length →
      occCount (setNode h i n) c + (getNode h i).children.count c
        = occCount h c + n.children.count c
  | [], i, n, hi => absurd hi (by simp)
  | m :: t, 0, n, _ => by
    show occCount (n :: t) c + List.count c m.children
        = occCount (m :: t) c + List.count c n.children
    unfold occCount
    omega
  | m :: t, i + 1, n, hi => by
    have ih := occCount_set (c := c) t i n (by simpa using hi)
    show occCount (m :: setNode t i n) c + List.count c (getNode t i).children
        = occCount (m :: t) c + List.count c n.children
    unfold occCount
    omega

theorem setNode_oob : ∀ (h : NodeHeap) (i : Nat) (n : NodeObj),
    h.length ≤ i → setNode h i n = h
  | [], _, _, _ => rfl
  | _ :: _, 0, _, hi => absurd hi (by simp)
  | m :: t, i + 1, n, hi => by
    show m :: setNode t i n = m :: t
    rw [setNode_oob t i n (by simpa using hi)]

theorem length_setParent (h : NodeHeap) (c : Nat) (pp : Option Nat) :
    (setParent h c pp).length = h.length := length_setNode ..

theorem getNode_setParent_self {h : NodeHeap} {c : Nat} {pp : Option Nat}
    (hc : c < h.length) :
    getNode (setParent h c pp) c = { getNode h c with parent := pp } :=
  getNode_set_self h c _ hc

theorem getNode_setParent_ne {h : NodeHeap} {c x : Nat} {pp : Option Nat}
    (hne : c ≠ x) : getNode (setParent h c pp) x = getNode h x :=
  getNode_set_ne h c x _ hne

theorem occCount_setParent (h : NodeHeap) (c : Nat) (pp : Option Nat) (x : Nat) :
    occCount (setParent h c pp) x = occCount h x := by
  by_cases hc : c < h.length
  · have h1 := occCount_set (c := x) h c { getNode h c with parent := pp } hc
    have h2 : ({ getNode h c with parent := pp } : NodeObj).children
        = (getNode h c).children := rfl
    rw [h2] at h1
    show occCount (setNode h c { getNode h c with parent := pp }) x = occCount h x
    omega
  · unfold setParent
    rw [setNode_oob h c _ (by omega)]

theorem length_foldl_setParent (p : Nat) : ∀ (cs : List Nat) (h : NodeHeap),
    (cs.foldl (fun acc c => setParent acc c (some p)) h).length = h.length
  | [], _ => rfl
  | c :: cs, h => by
    rw [List.foldl_cons, length_foldl_setParent p cs, length_setParent]

theorem occCount_foldl_setParent (p x : Nat) : ∀ (cs : List Nat) (h : NodeHeap),
    occCount (cs.foldl (fun acc c => setParent acc c (some p)) h) x = occCount h x
  | [], _ => rfl
  | c :: cs, h => by
    rw [List.foldl_cons, occCount_foldl_setParent p x cs, occCount_setParent]

theorem getNode_foldl_setParent (p : Nat) : ∀ (cs : List Nat) (h : NodeHeap) (x : Nat),
    (∀ c ∈ cs, c < h.length) →
    getNode (cs.foldl (fun acc c => setParent acc c (some p)) h) x
      = if x ∈ cs then { getNode h x with parent := some p } else getNode h x
  | [], h, x, _ => by simp
  | c :: cs, h, x, hlen => by
    rw [List.foldl_cons]
    have hlen2 : ∀ d ∈ cs, d < (setParent h c (some p)).length := by
      intro d hd
      rw [length_setParent]
      exact hlen d (List.mem_cons_of_mem c hd)
    rw [getNode_foldl_setParent p cs (setParent h c (some p)) x hlen2]
    by_cases hx : x ∈ cs
    · rw [if_pos hx, if_pos (List.mem_cons_of_mem c hx)]
      by_cases hxc : x = c
      · subst hxc
        rw [getNode_setParent_self (hlen x (List.mem_cons_self x cs))]
      · rw [getNode_setParent_ne (fun hc2 => hxc hc2.symm)]
    · rw [if_neg hx]
      by_cases hxc : x = c
      · subst hxc
        rw [if_pos (List.mem_cons_self x cs),
          getNode_setParent_self (hlen x (List.mem_cons_self x cs))]
      · rw [if_neg (by
          intro hc2
          rcases List.mem_cons.mp hc2 with h1 | h1
          · exact hxc h1
          · exact hx h1),
          getNode_setParent_ne (fun hc2 => hxc hc2.symm)]

theorem occCount_single_le (d : Nat) : ∀ (h : NodeHeap) (q : Nat), q < h.length →
    (getNode h q).children.count d ≤ occCount h d
  | [], q, hq => absurd hq (by simp)
  | m :: t, 0, _ => by
    show m.children.count d ≤ occCount (m :: t) d
    unfold occCount
    omega
  | m :: t, q + 1, hq => by
    have ih := occCount_single_le d t q (by simpa using hq)
    show (getNode t q).children.count d ≤ occCount (m :: t) d
    unfold occCount
    omega

theorem occCount_pair_le (d : Nat) : ∀ (h : NodeHeap) (p q : Nat), p < h.length →
    q < h.length → p ≠ q →
    (getNode h p).children.count d + (getNode h q).children.count d ≤ occCount h d
  | [], p, _, hp, _, _ => absurd hp (by simp)
  | m :: t, 0, 0, _, _, hne => absurd rfl hne
  | m :: t, 0, q + 1, _, hq, _ => by
    have h1 := occCount_single_le d t q (by simpa using hq)
    show m.children.count d + (getNode t q).children.count d ≤ occCount (m :: t) d
    unfold occCount
    omega
  | m :: t, p + 1, 0, hp, _, _ => by
    have h1 := occCount_single_le d t p (by simpa using hp)
    show (getNode t p).children.count d + m.children.count d ≤ occCount (m :: t) d
    unfold occCount
    omega
  | m :: t, p + 1, q + 1, hp, hq, hne => by
    have ih := occCount_pair_le d t p q (by simpa using hp) (by simpa using hq)
      (fun hc => hne (by rw [hc]))
    show (getNode t p).children.count d + (getNode t q).children.count d
        ≤ occCount (m :: t) d
    unfold occCount
    omega

theorem length_appendChildren (h : NodeHeap) (p : Nat) (cs : List Nat) :
    (appendChildren h p cs).length = h.length := by
  unfold appendChildren
  rw [length_foldl_setParent, length_setNode]

theorem occCount_appendChildren {h : NodeHeap} {p : Nat} {cs : List Nat}
    (hp : p < h.length) (x : Nat) :
    occCount (appendChildren h p cs) x = occCount h x + cs.count x := by
  unfold appendChildren
  rw [occCount_foldl_setParent]
  have h1 := occCount_set (c := x) h p
    { getNode h p with children := (getNode h p).children ++ cs } hp
  have h2 : ({ getNode h p with children := (getNode h p).children ++ cs } :
      NodeObj).children = (getNode h p).children ++ cs := rfl
  rw [h2, List.count_append] at h1
  omega

theorem getNode_appendChildren {h : NodeHeap} {p : Nat} {cs : List Nat}
    (hp : p < h.length) (hlen : ∀ c ∈ cs, c < h.length) (hpcs : p ∉ cs)
    (x : Nat) :
    getNode (appendChildren h p cs) x
      = if x ∈ cs then { getNode h x with parent := some p }
        else if x = p then
          { getNode h p with children := (getNode h p).children ++ cs }
        else getNode h x := by
  unfold appendChildren
  rw [getNode_foldl_setParent p cs _ x (by
    intro c hc
    rw [length_setNode]
    exact hlen c hc)]
  by_cases hx : x ∈ cs
  · rw [if_pos hx, if_pos hx,
      getNode_set_ne h p x _ (fun hc => hpcs (hc ▸ hx))]
  · rw [if_neg hx, if_neg hx]
    by_cases hxp : x = p
    · subst hxp
      rw [if_pos rfl, getNode_set_self h x _ hp]
    · rw [if_neg hxp, getNode_set_ne h p x _ (fun hc => hxp hc.symm)]

theorem wf_appendChildren {h : NodeHeap} {p : Nat} {cs : List Nat}
    (hwf : WfHeap h) (hp : p < h.length) (hnd : cs.Nodup)
    (hcs : ∀ c ∈ cs, c < h.length ∧ c ≠ p ∧ occCount h c = 0) :
    WfHeap (appendChildren h p cs) := by
  have hlen : ∀ c ∈ cs, c < h.length := fun c hc => (hcs c hc).1
  have hpcs : p ∉ cs := fun hc => (hcs p hc).2.1 rfl
  intro q hq d hd
  rw [length_appendChildren] at hq
  rw [getNode_appendChildren hp hlen hpcs q] at hd
  have hout : ∀ y, y ∈ (getNode h q).children →
      y < (appendChildren h p cs).length ∧
      (getNode (appendChildren h p cs) y).parent = some q ∧
      occCount (appendChildren h p cs) y = 1 := by
    intro y hy
    obtain ⟨hylen, hypar, hyocc⟩ := hwf q hq y hy
    have hyncs : y ∉ cs := by
      intro hc
      have := (hcs y hc).2.2
      omega
    refine ⟨by rw [length_appendChildren]; exact hylen, ?_, ?_⟩
    · rw [getNode_appendChildren hp hlen hpcs y, if_neg hyncs]
      by_cases hyp : y = p
      · subst hyp
        rw [if_pos rfl]
        exact hypar
      · rw [if_neg hyp]
        exact hypar
    · rw [occCount_appendChildren hp, List.count_eq_zero.mpr hyncs]
      omega
  by_cases hqcs : q ∈ cs
  · rw [if_pos hqcs] at hd
    exact hout d hd
  · rw [if_neg hqcs] at hd
    by_cases hqp : q = p
    · subst hqp
      rw [if_pos rfl] at hd
      rcases List.mem_append.mp hd with hold | hnew
      · exact hout d hold
      · obtain ⟨hd1, hd2, hd3⟩ := hcs d hnew
        refine ⟨by rw [length_appendChildren]; exact hd1, ?_, ?_⟩
        · rw [getNode_appendChildren hp hlen hpcs d, if_pos hnew]
        · rw [occCount_appendChildren hp, hd3,
            List.count_eq_one_of_mem hnd hnew]
    · rw [if_neg hqp] at hd
      exact hout d hd

theorem wf_clearChildren {h : NodeHeap} {p : Nat} (hwf : WfHeap h)
    (hp : p < h.length) :
    WfHeap (setNode h p { getNode h p with children := [] }) := by
  intro q hq d hd
  rw [length_setNode] at hq
  by_cases hqp : q = p
  · subst hqp
    rw [getNode_set_self h q _ hp] at hd
    simp at hd
  · rw [getNode_set_ne h p q _ (fun hc => hqp hc.symm)] at hd
    obtain ⟨hdlen, hdpar, hdocc⟩ := hwf q hq d hd
    have hocc := occCount_set (c := d) h p { getNode h p with children := [] } hp
    have hz : ({ getNode h p with children := ([] : List Nat) } : NodeObj).children
        = [] := rfl
    rw [hz, List.count_nil] at hocc
    have hdq : 0 < (getNode h q).children.count d := List.count_pos_iff.mpr hd
    have hpair := occCount_pair_le d h p q hp hq (fun hc => hqp hc.symm)
    refine ⟨by rw [length_setNode]; exact hdlen, ?_, ?_⟩
    · by_cases hdp : d = p
      · subst hdp
        rw [getNode_set_self h d _ hp]
        exact hdpar
      · rw [getNode_set_ne h p d _ (fun hc => hdp hc.symm)]
        exact hdpar
    · omega

theorem wf_removeChild {h h2 : NodeHeap} {p c : Nat} (hwf : WfHeap h)
    (hp : p < h.length) (hcp : c ≠ p) (hcm : c ∈ (getNode h p).children)
    (happ : removeChild h p c = some h2) :
    WfHeap h2 ∧ (getNode h2 c).parent = none := by
  unfold removeChild at happ
  rw [if_pos hcm] at happ
  injection happ with happ
  obtain ⟨hclen, hcpar, hcocc⟩ := hwf p hp c hcm
  have hErased : getNode (setNode h p
      { getNode h p with children := (getNode h p).children.erase c }) c
      = getNode h c :=
    getNode_set_ne h p c _ (fun hc => hcp hc.symm)
  have hc1len : c < (setNode h p
      { getNode h p with children := (getNode h p).children.erase c }).length := by
    rw [length_setNode]
    exact hclen
  have hget2 : ∀ x, getNode h2 x
      = if x = c then { getNode h c with parent := none }
        else if x = p then
          { getNode h p with children := (getNode h p).children.erase c }
        else getNode h x := by
    intro x
    rw [← happ]
    by_cases hxc : x = c
    · subst hxc
      rw [if_pos rfl, getNode_setParent_self hc1len, hErased]
    · rw [if_neg hxc, getNode_setParent_ne (fun hc2 => hxc hc2.symm)]
      by_cases hxp : x = p
      · subst hxp
        rw [if_pos rfl, getNode_set_self h x _ hp]
      · rw [if_neg hxp, getNode_set_ne h p x _ (fun hc2 => hxp hc2.symm)]
    
  have hlen2 : h2.length = h.length := by
    rw [← happ, length_setParent, length_setNode]
  have hocc2 : ∀ y, occCount h2 y + (getNode h p).children.count y
      = occCount h y + ((getNode h p).children.erase c).count y := by
    intro y
    rw [← happ, occCount_setParent]
    have h1 := occCount_set (c := y) h p
      { getNode h p with children := (getNode h p).children.erase c } hp
    exact h1
  have hcount1 : (getNode h p).children.count c = 1 := by
    have hle := occCount_single_le c h p hp
    have hpos := List.count_pos_iff.mpr hcm
    omega
  constructor
  · intro q hq d hd
    rw [hlen2] at hq
    rw [hget2 q] at hd
    have hin : d ∈ (getNode h q).children ∧ d ≠ c := by
      by_cases hqc : q = c
      · subst hqc
        rw [if_pos rfl] at hd
        have hd2 : d ∈ (getNode h q).children := hd
        obtain ⟨_, hdpar, _⟩ := hwf q hq d hd2
        refine ⟨hd2, fun hdc => ?_⟩
        subst hdc
        rw [hcpar] at hdpar
        exact hcp (Option.some.inj hdpar).symm
      · rw [if_neg hqc] at hd
        by_cases hqp : q = p
        · subst hqp
          rw [if_pos rfl] at hd
          have hd2 : d ∈ (getNode h q).children.erase c := hd
          have hdc : d ≠ c := by
            intro hdc
            subst hdc
            have := List.count_pos_iff.mpr hd2
            rw [List.count_erase_self, hcount1] at this
            omega
          exact ⟨List.mem_of_mem_erase hd2, hdc⟩
        · rw [if_neg hqp] at hd
          obtain ⟨_, hdpar, _⟩ := hwf q hq d hd
          refine ⟨hd, fun hdc => ?_⟩
          subst hdc
          rw [hcpar] at hdpar
          exact hqp (Option.some.inj hdpar).symm
    obtain ⟨hdmem, hdc⟩ := hin
    obtain ⟨hdlen, hdpar, hdocc⟩ := hwf q hq d hdmem
    refine ⟨by rw [hlen2]; exact hdlen, ?_, ?_⟩
    · rw [hget2 d, if_neg hdc]
      by_cases hdp : d = p
      · subst hdp
        rw [if_pos rfl]
        exact hdpar
      · rw [if_neg hdp]
        exact hdpar
    · have := hocc2 d
      rw [List.count_erase_of_ne hdc] at this
      omega
  · rw [hget2 c, if_pos rfl]

instance (h : NodeHeap) : Decidable (WfHeap h) := by
  unfold WfHeap
  infer_instance

instance (h : NodeHeap) (op : TreeOp) : Decidable (TreeOpOk h op) := by
  cases op
  all_goals
    unfold TreeOpOk
    infer_instance

/-- C7 (amended): the four Node-tree operations preserve the
parent/children invariant under the side conditions of `TreeOpOk`
(appended children are detached, distinct from the parent and
duplicate-free; removal targets an actual child), and `remove_child`
clears the detached child's parent reference.  Unrestricted sequences
violate the invariant (see the counterexample). -/
theorem node_tree_invariant_preserved (h h2 : NodeHeap) (op : TreeOp)
    (p0 c0 : Nat) (hwf : WfHeap h) (hok : TreeOpOk h op)
    (happ : applyTreeOp h op = some h2) :
    WfHeap h2 ∧ (op = .remove p0 c0 → (getNode h2 c0).parent = none) := by
  cases op with
  | append1 p c =>
    injection happ with happ
    obtain ⟨hp, hc, hcp, h0⟩ := hok
    refine ⟨?_, fun heq => by cases heq⟩
    rw [← happ, show appendChild h p c = appendChildren h p [c] from rfl]
    exact wf_appendChildren hwf hp (List.nodup_singleton c) (by
      intro x hx
      rw [List.mem_singleton] at hx
      subst hx
      exact ⟨hc, hcp, h0⟩)
  | appendMany p cs =>
    injection happ with happ
    obtain ⟨hp, hnd, hcs⟩ := hok
    refine ⟨?_, fun heq => by cases heq⟩
    rw [← happ]
    exact wf_appendChildren hwf hp hnd hcs
  | setCs p cs =>
    injection happ with happ
    obtain ⟨hp, hnd, hcs⟩ := hok
    refine ⟨?_, fun heq => by cases heq⟩
    rw [← happ]
    show WfHeap (appendChildren (setNode h p { getNode h p with children := [] }) p cs)
    have hwf1 := wf_clearChildren hwf hp
    have hp1 : p < (setNode h p { getNode h p with children := [] }).length := by
      rw [length_setNode]
      exact hp
    refine wf_appendChildren hwf1 hp1 hnd ?_
    intro x hx
    obtain ⟨hx1, hx2, hx3⟩ := hcs x hx
    refine ⟨by rw [length_setNode]; exact hx1, hx2, ?_⟩
    have hocc := occCount_set (c := x) h p { getNode h p with children := [] } hp
    have hz : ({ getNode h p with children := ([] : List Nat) } : NodeObj).children
        = [] := rfl
    rw [hz, List.count_nil] at hocc
    omega
  | remove p c =>
    obtain ⟨hp, hcp, hcm⟩ := hok
    obtain ⟨hwf2, hpar⟩ := wf_removeChild hwf hp hcp hcm happ
    refine ⟨hwf2, fun heq => ?_⟩
    injection heq with he1 he2
    rw [← he2]
    exact hpar

/-- Witness for `node_tree_invariant_preserved`: removing child 1 from
parent 0 in a two-node tree. -/
theorem node_tree_invariant_preserved_witness :
    WfHeap [⟨none, []⟩, ⟨none, []⟩] ∧
    (TreeOp.remove 0 1 = TreeOp.remove 0 1 →
      (getNode [⟨none, []⟩, ⟨none, []⟩] 1).parent = none) :=
  node_tree_invariant_preserved [⟨none, [1]⟩, ⟨some 0, []⟩]
    [⟨none, []⟩, ⟨none, []⟩] (.remove 0 1) 0 1
    (by decide) (by decide) (by decide)

/-- C7 counterexample: from a well-formed three-node heap, appending node 2
to parent 0 and then to parent 1 — a sequence of plain `append_child`
calls, which the code logs but does not prevent — leaves node 2 inside
both children lists with its parent pointer at 1, violating
`children[i].parent == this` and parent-uniqueness. -/
theorem node_tree_invariant_counterexample :
    WfHeap [⟨none, []⟩, ⟨none, []⟩, ⟨none, []⟩] ∧
    applyTreeOp [⟨none, []⟩, ⟨none, []⟩, ⟨none, []⟩] (.append1 0 2)
      = some (appendChild [⟨none, []⟩, ⟨none, []⟩, ⟨none, []⟩] 0 2) ∧
    applyTreeOp (appendChild [⟨none, []⟩, ⟨none, []⟩, ⟨none, []⟩] 0 2) (.append1 1 2)
      = some (appendChild (appendChild [⟨none, []⟩, ⟨none, []⟩, ⟨none, []⟩] 0 2) 1 2) ∧
    ¬ WfHeap (appendChild (appendChild [⟨none, []⟩, ⟨none, []⟩, ⟨none, []⟩] 0 2) 1 2) := by
  refine ⟨by decide, rfl, rfl, by decide⟩

/-- The catalogue path attribute name.  Modelled from the spec: the
`model_base/constants.py` module holding `PathAttributeName` is not among
the sources; the spec says catalogues may carry a hierarchical path (list
of folder names) under a dedicated attribute. -/
def PathAttributeName : String := "Path"

/-- Node kinds of the tscat root-model tree (nodes.py): the fixed root and
trash singletons, folder nodes (with their synthesized local uuid) and
catalogue nodes wrapping an entity. -/
inductive NodeKind where
  | rootK
  | trashK
  | folderK (name : String) (fuuid : String)
  | catalogK (entity : Entity)
deriving DecidableEq, Repr

/-- A tree node: kind plus ordered children (nodes.py `Node`). -/
inductive TNode where
  | mk (kind : NodeKind) (children : List TNode)

def TNode.kind : TNode → NodeKind
  | .mk k _ => k

def TNode.children : TNode → List TNode
  | .mk _ cs => cs

/-- The match test of `_node_from_uuid` (tscat_root_model.py lines 81-93):
`isinstance(node, (CatalogNode, FolderNode)) and node.uuid == uuid`. -/
def matchesKind (u : String) : NodeKind → Bool
  | .folderK _ fu => fu == u
  | .catalogK e => e.uuid == u
  | _ => false

def isCatalogKind : NodeKind → Bool
  | .catalogK _ => true
  | _ => false

mutual
/-- Number of nodes matching uuid `u` that the `_node_from_uuid` search
can see below (and including) this node: the search does not descend into
a CatalogNode's children. -/
def countU (u : String) : TNode → Nat
  | .mk k cs =>
    (if matchesKind u k then 1 else 0) +
    (if isCatalogKind k then 0 else countUList u cs)

def countUList (u : String) : List TNode → Nat
  | [] => 0
  | n :: rest => countU u n + countUList u rest
end

/-- Functional form of `_get_node_from_uuid_and_remove_from_tree`
(tscat_root_model.py lines 101-112) on a forest: the forest with the found
node removed, plus the found node.  The Python stack-based DFS visits the
same nodes (never descending into CatalogNode children); under the
uniqueness hypotheses used below the visit order is irrelevant, so an
in-order traversal is used. -/
def findRemoveList (u : String) : List TNode → Option (List TNode × TNode)
  | [] => none
  | TNode.mk k cs :: rest =>
    if matchesKind u k then some (rest, TNode.mk k cs)
    else
      match (if isCatalogKind k then none else findRemoveList u cs) with
      | some (cs2, nd) => some (TNode.mk k cs2 :: rest, nd)
      | none =>
        match findRemoveList u rest with
        | some (rest2, nd) => some (TNode.mk k cs :: rest2, nd)
        | none => none

/-- `_get_node_from_uuid_and_remove_from_tree` from the root. -/
def findRemoveNode (u : String) (root : TNode) : Option (TNode × TNode) :=
  match findRemoveList u root.children with
  | some (cs2, nd) => some (TNode.mk root.kind cs2, nd)
  | none => none

/-- The folder chain created by `node_from_path` (tscat_root_model.py
lines 52-71) when the remaining path has no matching folders: each created
FolderNode synthesizes a fresh local uuid (`path-uuid-<id>`); the
generator is abstracted as `gen` so that the theorems hold for any uuid
supply. -/
def chainFolders (gen : Nat → String) (k : Nat) : List String → TNode → TNode
  | [], nd => nd
  | f :: fs, nd => TNode.mk (.folderK f (gen k)) [chainFolders gen (k + 1) fs nd]

def isFolderNamed (n : TNode) (f : String) : Bool :=
  match n.kind with
  | .folderK name _ => name == f
  | _ => false

mutual
/-- `node_from_path` combined with the final `append_child`: walk the
folder segments from this forest, creating missing folders, and append
`nd` under the final folder (tscat_root_model.py lines 52-71 and 114-123). -/
def insertAtPathList (gen : Nat → String) (k : Nat) (cs : List TNode)
    (path : List String) (nd : TNode) : List TNode :=
  match path with
  | [] => cs ++ [nd]
  | f :: fs => insertSeg gen k f fs nd cs
termination_by (path.length, 1, cs.length)

/-- Scan a children list for the first folder named `f`; descend when
found, otherwise append a freshly created folder chain. -/
def insertSeg (gen : Nat → String) (k : Nat) (f : String) (fs : List String)
    (nd : TNode) : List TNode → List TNode
  | [] => [chainFolders gen k (f :: fs) nd]
  | c :: rest =>
    if isFolderNamed c f then
      TNode.mk c.kind (insertAtPathList gen k c.children fs nd) :: rest
    else c :: insertSeg gen k f fs nd rest
termination_by l => (fs.length + 1, 0, l.length)
end

/-- The entity of a CatalogNode. -/
def nodeEntity : TNode → Option Entity
  | .mk (.catalogK e) _ => some e
  | _ => none

/-- The catalogue path read by `_node_from_catalogue_path`
(tscat_root_model.py lines 73-79): the path attribute when it is a list of
strings, else the root. -/
def entityPath (e : Entity) : List String :=
  match lookupAttr e PathAttributeName with
  | some (.strList p) => p
  | _ => []

/-- Append a node under the trash child (`self._trash`, the root's
trash-kind child). -/
def appendToTrashList (nd : TNode) : List TNode → List TNode
  | [] => []
  | c :: rest =>
    match c.kind with
    | .trashK => TNode.mk c.kind (c.children ++ [nd]) :: rest
    | _ => c :: appendToTrashList nd rest

/-- `_insert_catalogue_node_at_node_path_or_trash` (tscat_root_model.py
lines 114-123): a removed entity's node goes under Trash, otherwise it is
appended at the entity's folder path. -/
def insertCatalogueNodeAtPathOrTrash (gen : Nat → String) (root : TNode)
    (nd : TNode) : TNode :=
  match nodeEntity nd with
  | none => root
  | some e =>
    if e.in_trash then TNode.mk root.kind (appendToTrashList nd root.children)
    else TNode.mk root.kind (insertAtPathList gen 0 root.children (entityPath e) nd)

/-- `node.node = entity` on the detached CatalogNode (tscat_root_model.py
line 178). -/
def setTNodeEntity : TNode → Entity → TNode
  | .mk (.catalogK _) cs, e => .mk (.catalogK e) cs
  | n, _ => n

/-- The MoveToTrash/RestoreFromTrash branch of
`TscatRootModel._driver_action_done` (tscat_root_model.py lines 172-180):
for each `(uuid, entity)` pair of `zip(action.uuids, action.entities)`,
detach the node (skip when absent), update its entity, and reinsert at the
entity's path or in the trash. -/
def handleTrashRestore (gen : Nat → String) (root : TNode) :
    List (String × Entity) → TNode
  | [] => root
  | (u, entity) :: rest =>
    match findRemoveNode u root with
    | none => handleTrashRestore gen root rest
    | some (root2, nd) =>
      handleTrashRestore gen
        (insertCatalogueNodeAtPathOrTrash gen root2 (setTNodeEntity nd entity)) rest

/-- Translated from `MoveToTrashAction.action` (actions.py lines 166-169):
look each entity up, move it to trash, and collect the (mutated) entities
in the output field. -/
def moveToTrashActionRun (s : Store) : List String → Except Exc (Store × List Entity)
  | [] => .ok (s, [])
  | u :: rest =>
    match entityByUuid s u with
    | .error ex => .error ex
    | .ok entity =>
      match moveToTrashActionRun (setTrash s entity.uuid true) rest with
      | .error ex => .error ex
      | .ok (s2, es) => .ok (s2, { entity with in_trash := true } :: es)

/-- Translated from `RestoreFromTrashAction.action` (actions.py lines
178-181). -/
def restoreFromTrashActionRun (s : Store) :
    List String → Except Exc (Store × List Entity)
  | [] => .ok (s, [])
  | u :: rest =>
    match entityByUuid s u with
    | .error ex => .error ex
    | .ok entity =>
      match restoreFromTrashActionRun (setTrash s entity.uuid false) rest with
      | .error ex => .error ex
      | .ok (s2, es) => .ok (s2, { entity with in_trash := false } :: es)


theorem countUList_cons (u : String) (n : TNode) (rest : List TNode) :
    countUList u (n :: rest) = countU u n + countUList u rest := by
  simp [countUList]

theorem countUList_append (u : String) : ∀ (l1 l2 : List TNode),
    countUList u (l1 ++ l2) = countUList u l1 + countUList u l2
  | [], l2 => by simp [countUList]
  | n :: rest, l2 => by
    have ih := countUList_append u rest l2
    show countUList u (n :: (rest ++ l2)) = countUList u (n :: rest) + countUList u l2
    rw [countUList_cons, countUList_cons]
    omega

theorem countU_node_zero {u : String} {k : NodeKind} {cs : List TNode}
    (h : countU u (TNode.mk k cs) = 0) :
    matchesKind u k = false ∧ (isCatalogKind k = false → countUList u cs = 0) := by
  unfold countU at h
  constructor
  · by_cases hb : matchesKind u k = true
    · rw [if_pos hb] at h
      exact absurd h (by omega)
    · simpa using hb
  · intro hcat
    by_cases hb : matchesKind u k = true
    · rw [if_pos hb] at h
      exact absurd h (by omega)
    · rw [if_neg hb, hcat] at h
      simpa using h

theorem countU_expand {u : String} {k : NodeKind} {cs : List TNode}
    (hm : matchesKind u k = false) (hcat : isCatalogKind k = false) :
    countU u (TNode.mk k cs) = countUList u cs := by
  unfold countU
  rw [hm, hcat]
  simp

theorem findRemoveList_cons (u : String) (k : NodeKind) (cs rest : List TNode) :
    findRemoveList u (TNode.mk k cs :: rest)
      = (if matchesKind u k then some (rest, TNode.mk k cs)
         else
           match (if isCatalogKind k then none else findRemoveList u cs) with
           | some (cs2, nd) => some (TNode.mk k cs2 :: rest, nd)
           | none =>
             match findRemoveList u rest with
             | some (rest2, nd) => some (TNode.mk k cs :: rest2, nd)
             | none => none) := by
  simp [findRemoveList]

theorem countU_zero_findRemove {u : String} : ∀ (l : List TNode),
    countUList u l = 0 → findRemoveList u l = none
  | [], _ => by simp [findRemoveList]
  | TNode.mk k cs :: rest, h => by
    have hsplit : countU u (TNode.mk k cs) = 0 ∧ countUList u rest = 0 := by
      rw [countUList_cons] at h
      omega
    obtain ⟨hn, hrest⟩ := hsplit
    obtain ⟨hm, hcs⟩ := countU_node_zero hn
    rw [findRemoveList_cons, if_neg (by simp [hm])]
    have hinner : (if isCatalogKind k then none else findRemoveList u cs)
        = (none : Option (List TNode × TNode)) := by
      by_cases hcat : isCatalogKind k = true
      · rw [if_pos hcat]
      · rw [if_neg hcat, countU_zero_findRemove cs (hcs (by simpa using hcat))]
    rw [hinner, countU_zero_findRemove rest hrest]

theorem findRemove_append {u : String} : ∀ (l1 l2 : List TNode),
    countUList u l1 = 0 →
    findRemoveList u (l1 ++ l2)
      = (findRemoveList u l2).map (fun p => (l1 ++ p.1, p.2))
  | [], l2, _ => by
    show findRemoveList u l2 = _
    cases h2 : findRemoveList u l2 <;> simp
  | TNode.mk k cs :: rest, l2, h => by
    have hsplit : countU u (TNode.mk k cs) = 0 ∧ countUList u rest = 0 := by
      rw [countUList_cons] at h
      omega
    obtain ⟨hn, hrest⟩ := hsplit
    obtain ⟨hm, hcs⟩ := countU_node_zero hn
    have hinner : (if isCatalogKind k then none else findRemoveList u cs)
        = (none : Option (List TNode × TNode)) := by
      by_cases hcat : isCatalogKind k = true
      · rw [if_pos hcat]
      · rw [if_neg hcat, countU_zero_findRemove cs (hcs (by simpa using hcat))]
    have ih := findRemove_append rest l2 hrest
    show findRemoveList u (TNode.mk k cs :: (rest ++ l2)) = _
    rw [findRemoveList_cons, if_neg (by simp [hm]), hinner, ih]
    rcases h2 : findRemoveList u l2 with _ | ⟨p1, p2⟩
    · rfl
    · rfl

theorem findRemove_singleton {u : String} {nd : TNode}
    (hnd : matchesKind u nd.kind = true) :
    findRemoveList u [nd] = some ([], nd) := by
  cases nd with
  | mk k0 cs0 =>
    have hnd2 : matchesKind u k0 = true := hnd
    rw [findRemoveList_cons, if_pos hnd2]

theorem findRemove_count {u : String} : ∀ (l l2 : List TNode) (nd : TNode),
    findRemoveList u l = some (l2, nd) →
    countUList u l = countU u nd + countUList u l2
  | [], _, _, h => by simp [findRemoveList] at h
  | TNode.mk k cs :: rest, l2, nd, h => by
    rw [findRemoveList_cons] at h
    by_cases hm : matchesKind u k = true
    · rw [if_pos hm] at h
      injection h with h2
      obtain ⟨h3, h4⟩ := Prod.mk.inj h2
      rw [← h3, ← h4, countUList_cons]
    · rw [if_neg hm] at h
      have hm2 : matchesKind u k = false := by simpa using hm
      by_cases hcat : isCatalogKind k = true
      · rw [if_pos hcat] at h
        have h1 : (match findRemoveList u rest with
            | some (rest2, nd2) => some (TNode.mk k cs :: rest2, nd2)
            | none => (none : Option (List TNode × TNode))) = some (l2, nd) := h
        rcases hrest : findRemoveList u rest with _ | ⟨rest2, nd2⟩
        · rw [hrest] at h1
          simp at h1
        · rw [hrest] at h1
          simp only [Option.some.injEq, Prod.mk.injEq] at h1
          obtain ⟨hl2, hnd2⟩ := h1
          have ih := findRemove_count rest rest2 nd2 hrest
          rw [← hl2, ← hnd2, countUList_cons, countUList_cons]
          omega
      · rw [if_neg hcat] at h
        have hcat2 : isCatalogKind k = false := by simpa using hcat
        rcases hcs : findRemoveList u cs with _ | ⟨cs2, nd2⟩
        · rw [hcs] at h
          have h1 : (match findRemoveList u rest with
              | some (rest2, nd2) => some (TNode.mk k cs :: rest2, nd2)
              | none => (none : Option (List TNode × TNode))) = some (l2, nd) := h
          rcases hrest : findRemoveList u rest with _ | ⟨rest2, nd2⟩
          · rw [hrest] at h1
            simp at h1
          · rw [hrest] at h1
            simp only [Option.some.injEq, Prod.mk.injEq] at h1
            obtain ⟨hl2, hnd2⟩ := h1
            have ih := findRemove_count rest rest2 nd2 hrest
            rw [← hl2, ← hnd2, countUList_cons, countUList_cons]
            omega
        · rw [hcs] at h
          simp only [Option.some.injEq, Prod.mk.injEq] at h
          obtain ⟨hl2, hnd2⟩ := h
          have ih := findRemove_count cs cs2 nd2 hcs
          have e1 := @countU_expand u k cs hm2 hcat2
          have e2 := @countU_expand u k cs2 hm2 hcat2
          rw [← hl2, ← hnd2, countUList_cons, countUList_cons]
          omega

theorem findRemove_chainFolders (u : String) (gen : Nat → String)
    (hgen : ∀ i, gen i ≠ u) : ∀ (k : Nat) (p : List String) (nd : TNode),
    matchesKind u nd.kind = true →
    ∃ rem, findRemoveList u [chainFolders gen k p nd] = some (rem, nd) ∧
      countUList u rem = 0
  | k, [], nd, hnd => ⟨[], by
      rw [show chainFolders gen k [] nd = nd from rfl]
      exact findRemove_singleton hnd, by simp [countUList]⟩
  | k, f :: fs, nd, hnd => by
    obtain ⟨rem, h1, h2⟩ := findRemove_chainFolders u gen hgen (k + 1) fs nd hnd
    have hm : matchesKind u (NodeKind.folderK f (gen k)) = false := by
      simpa [matchesKind] using hgen k
    refine ⟨[TNode.mk (.folderK f (gen k)) rem], ?_, ?_⟩
    · rw [show chainFolders gen k (f :: fs) nd
          = TNode.mk (.folderK f (gen k)) [chainFolders gen (k + 1) fs nd] from rfl]
      rw [findRemoveList_cons, if_neg (by simp [hm])]
      rw [show (if isCatalogKind (NodeKind.folderK f (gen k)) then none
            else findRemoveList u [chainFolders gen (k + 1) fs nd])
          = findRemoveList u [chainFolders gen (k + 1) fs nd]
          from by simp [isCatalogKind]]
      rw [h1]
    · rw [countUList_cons,
        @countU_expand u (.folderK f (gen k)) rem hm (by simp [isCatalogKind]), h2]
      simp [countUList]

mutual
theorem findRemove_insertAtPathList (u : String) (gen : Nat → String)
    (hgen : ∀ i, gen i ≠ u) : ∀ (k : Nat) (path : List String) (cs : List TNode)
    (nd : TNode), countUList u cs = 0 → matchesKind u nd.kind = true →
    ∃ cs2, findRemoveList u (insertAtPathList gen k cs path nd) = some (cs2, nd) ∧
      countUList u cs2 = 0
  | k, [], cs, nd, hcs, hnd => by
    rw [show insertAtPathList gen k cs [] nd = cs ++ [nd]
        from by simp [insertAtPathList]]
    refine ⟨cs ++ [], ?_, ?_⟩
    · rw [findRemove_append cs [nd] hcs, findRemove_singleton hnd]
      rfl
    · rw [countUList_append, hcs]
      simp [countUList]
  | k, f :: fs, cs, nd, hcs, hnd => by
    rw [show insertAtPathList gen k cs (f :: fs) nd = insertSeg gen k f fs nd cs
        from by simp [insertAtPathList]]
    exact findRemove_insertSeg u gen hgen k f fs nd cs hcs hnd
termination_by k path cs nd => (path.length, 1, cs.length)

theorem findRemove_insertSeg (u : String) (gen : Nat → String)
    (hgen : ∀ i, gen i ≠ u) : ∀ (k : Nat) (f : String) (fs : List String)
    (nd : TNode) (l : List TNode), countUList u l = 0 →
    matchesKind u nd.kind = true →
    ∃ cs2, findRemoveList u (insertSeg gen k f fs nd l) = some (cs2, nd) ∧
      countUList u cs2 = 0
  | k, f, fs, nd, [], _, hnd => by
    rw [show insertSeg gen k f fs nd [] = [chainFolders gen k (f :: fs) nd]
        from by simp [insertSeg]]
    exact findRemove_chainFolders u gen hgen k (f :: fs) nd hnd
  | k, f, fs, nd, c :: rest, hl, hnd => by
    have hsplit : countU u c = 0 ∧ countUList u rest = 0 := by
      rw [countUList_cons] at hl
      omega
    obtain ⟨hc0, hrest0⟩ := hsplit
    by_cases hf : isFolderNamed c f = true
    · cases c with
      | mk kc csc =>
        obtain ⟨hm, hcsf⟩ := countU_node_zero hc0
        have hnotcat : isCatalogKind kc = false := by
          cases kc <;> first
            | rfl
            | simp [isFolderNamed, TNode.kind] at hf
        have hcs0 : countUList u csc = 0 := hcsf hnotcat
        obtain ⟨cs2, h1, h2⟩ :=
          findRemove_insertAtPathList u gen hgen k fs csc nd hcs0 hnd
        refine ⟨TNode.mk kc cs2 :: rest, ?_, ?_⟩
        · rw [show insertSeg gen k f fs nd (TNode.mk kc csc :: rest)
              = TNode.mk kc (insertAtPathList gen k csc fs nd) :: rest
              from by simp [insertSeg, hf, TNode.kind, TNode.children]]
          rw [findRemoveList_cons, if_neg (by simp [hm])]
          rw [show (if isCatalogKind kc then none
                else findRemoveList u (insertAtPathList gen k csc fs nd))
              = findRemoveList u (insertAtPathList gen k csc fs nd)
              from by rw [hnotcat]; simp]
          rw [h1]
        · rw [countUList_cons, @countU_expand u kc cs2 hm hnotcat, h2, hrest0]
    · obtain ⟨cs2, h1, h2⟩ :=
        findRemove_insertSeg u gen hgen k f fs nd rest hrest0 hnd
      refine ⟨c :: cs2, ?_, ?_⟩
      · rw [show insertSeg gen k f fs nd (c :: rest)
            = c :: insertSeg gen k f fs nd rest from by simp [insertSeg, hf]]
        rw [show (c :: insertSeg gen k f fs nd rest)
            = [c] ++ insertSeg gen k f fs nd rest from rfl]
        rw [findRemove_append [c] _
          (by rw [countUList_cons, hc0]; simp [countUList]), h1]
        rfl
      · rw [countUList_cons, hc0, h2]
termination_by k f fs nd l => (fs.length + 1, 0, l.length)
end

theorem mem_setTrash_self {s : Store} {e : Entity} (hmem : e ∈ s.entities) (b : Bool) :
    { e with in_trash := b } ∈ (setTrash s e.uuid b).entities := by
  show { e with in_trash := b }
      ∈ s.entities.map (fun x => if x.uuid == e.uuid then { x with in_trash := b } else x)
  exact List.mem_map.mpr ⟨e, hmem, by simp⟩

theorem moveToTrash_single {s : Store} {e : Entity}
    (hnd : (s.entities.map Entity.uuid).Nodup) (hmem : e ∈ s.entities) :
    moveToTrashActionRun s [e.uuid]
      = .ok (setTrash s e.uuid true, [{ e with in_trash := true }]) := by
  have h1 := entityByUuid_of_mem hnd hmem
  simp only [moveToTrashActionRun]
  rw [h1]

theorem restoreFromTrash_single {s : Store} {e : Entity}
    (hnd : (s.entities.map Entity.uuid).Nodup) (hmem : e ∈ s.entities) :
    restoreFromTrashActionRun s [e.uuid]
      = .ok (setTrash s e.uuid false, [{ e with in_trash := false }]) := by
  have h1 := entityByUuid_of_mem hnd hmem
  simp only [restoreFromTrashActionRun]
  rw [h1]

theorem insertAtPathList_trash_head (gen : Nat → String) (k : Nat)
    (path : List String) (nd : TNode) (tl cs : List TNode) :
    insertAtPathList gen k (TNode.mk .trashK tl :: cs) path nd
      = TNode.mk .trashK tl :: insertAtPathList gen k cs path nd := by
  match path with
  | [] => simp [insertAtPathList]
  | f :: fs =>
    rw [show insertAtPathList gen k (TNode.mk .trashK tl :: cs) (f :: fs) nd
        = insertSeg gen k f fs nd (TNode.mk .trashK tl :: cs)
        from by simp [insertAtPathList]]
    rw [show insertSeg gen k f fs nd (TNode.mk .trashK tl :: cs)
        = TNode.mk .trashK tl :: insertSeg gen k f fs nd cs
        from by simp [insertSeg, isFolderNamed, TNode.kind]]
    rw [show insertAtPathList gen k cs (f :: fs) nd = insertSeg gen k f fs nd cs
        from by simp [insertAtPathList]]

/-- C5: for a non-trashed catalogue entity `e` present in the store and
shown exactly once in the main tree (`hfind`/`hcount`) and nowhere in the
trash subtree (`htcs`), completing `MoveToTrashAction([e.uuid])` and then
`RestoreFromTrashAction([e.uuid])`, with the root model handling each
completion (`handleTrashRestore`), restores `e` with all its attributes
(the restore output is exactly `[e]`), leaves the trash subtree exactly as
before (so it holds no node for `e.uuid`), and leaves the main tree with
exactly one node for `e.uuid` carrying the same entity and the same
children — the node is detached and reattached, never copied. -/
theorem moveToTrash_restore_tree_roundtrip (s : Store) (e : Entity)
    (tcs rest rest2 ecs : List TNode) (gen : Nat → String)
    (hwf : WfStore s) (hmem : e ∈ s.entities)
    (htr : e.in_trash = false)
    (hgen : ∀ i, gen i ≠ e.uuid)
    (htcs : countUList e.uuid tcs = 0)
    (hfind : findRemoveList e.uuid rest = some (rest2, TNode.mk (.catalogK e) ecs))
    (hcount : countUList e.uuid rest = 1) :
    ∃ rest3 rest4,
      moveToTrashActionRun s [e.uuid]
        = .ok (setTrash s e.uuid true, [{ e with in_trash := true }]) ∧
      restoreFromTrashActionRun (setTrash s e.uuid true) [e.uuid]
        = .ok (setTrash (setTrash s e.uuid true) e.uuid false, [e]) ∧
      handleTrashRestore gen
          (handleTrashRestore gen
            (TNode.mk .rootK (TNode.mk .trashK tcs :: rest))
            [(e.uuid, { e with in_trash := true })])
          [(e.uuid, e)]
        = TNode.mk .rootK (TNode.mk .trashK tcs :: rest3) ∧
      findRemoveList e.uuid rest3 = some (rest4, TNode.mk (.catalogK e) ecs) ∧
      countUList e.uuid rest3 = 1 := by
  obtain ⟨u0, ty0, a0, tr0⟩ := e
  have htr2 : tr0 = false := htr
  subst htr2
  have hnd := hwf.1
  have hgen2 : ∀ i, gen i ≠ u0 := hgen
  have hmv : moveToTrashActionRun s [u0]
      = .ok (setTrash s u0 true, [Entity.mk u0 ty0 a0 true]) :=
    moveToTrash_single hnd hmem
  have hnd1 : ((setTrash s u0 true).entities.map Entity.uuid).Nodup := by
    rw [setTrash_map_uuid]
    exact hnd
  have hmemT : Entity.mk u0 ty0 a0 true ∈ (setTrash s u0 true).entities :=
    mem_setTrash_self hmem true
  have hrs : restoreFromTrashActionRun (setTrash s u0 true) [u0]
      = .ok (setTrash (setTrash s u0 true) u0 false, [Entity.mk u0 ty0 a0 false]) :=
    restoreFromTrash_single hnd1 hmemT
  have htrhead : countUList u0 [TNode.mk .trashK tcs] = 0 := by
    rw [countUList_cons,
      @countU_expand u0 .trashK tcs (by simp [matchesKind]) (by simp [isCatalogKind]),
      htcs]
    simp [countUList]
  have hfind1 : findRemoveList u0 (TNode.mk .trashK tcs :: rest)
      = some (TNode.mk .trashK tcs :: rest2,
              TNode.mk (.catalogK (Entity.mk u0 ty0 a0 false)) ecs) := by
    rw [show (TNode.mk .trashK tcs :: rest) = [TNode.mk .trashK tcs] ++ rest from rfl,
      findRemove_append [TNode.mk .trashK tcs] rest htrhead, hfind]
    rfl
  have hfrn1 : findRemoveNode u0 (TNode.mk .rootK (TNode.mk .trashK tcs :: rest))
      = some (TNode.mk .rootK (TNode.mk .trashK tcs :: rest2),
              TNode.mk (.catalogK (Entity.mk u0 ty0 a0 false)) ecs) := by
    unfold findRemoveNode
    rw [show (TNode.mk .rootK (TNode.mk .trashK tcs :: rest)).children
        = TNode.mk .trashK tcs :: rest from rfl, hfind1]
    rfl
  have hmvTree : handleTrashRestore gen
      (TNode.mk .rootK (TNode.mk .trashK tcs :: rest))
      [(u0, Entity.mk u0 ty0 a0 true)]
      = TNode.mk .rootK (TNode.mk .trashK
          (tcs ++ [TNode.mk (.catalogK (Entity.mk u0 ty0 a0 true)) ecs]) :: rest2) := by
    simp only [handleTrashRestore]
    rw [hfrn1]
    rfl
  have hndT : matchesKind u0
      (TNode.mk (.catalogK (Entity.mk u0 ty0 a0 true)) ecs).kind = true := by
    simp [matchesKind, TNode.kind]
  have hfind2 : findRemoveList u0
      (TNode.mk .trashK
        (tcs ++ [TNode.mk (.catalogK (Entity.mk u0 ty0 a0 true)) ecs]) :: rest2)
      = some (TNode.mk .trashK tcs :: rest2,
              TNode.mk (.catalogK (Entity.mk u0 ty0 a0 true)) ecs) := by
    rw [findRemoveList_cons, if_neg (by simp [matchesKind])]
    rw [show (if isCatalogKind NodeKind.trashK then none
          else findRemoveList u0
            (tcs ++ [TNode.mk (.catalogK (Entity.mk u0 ty0 a0 true)) ecs]))
        = findRemoveList u0
            (tcs ++ [TNode.mk (.catalogK (Entity.mk u0 ty0 a0 true)) ecs])
        from by simp [isCatalogKind]]
    rw [findRemove_append tcs
        [TNode.mk (.catalogK (Entity.mk u0 ty0 a0 true)) ecs] htcs,
      findRemove_singleton hndT]
    simp
  have hfrn2 : findRemoveNode u0
      (TNode.mk .rootK (TNode.mk .trashK
        (tcs ++ [TNode.mk (.catalogK (Entity.mk u0 ty0 a0 true)) ecs]) :: rest2))
      = some (TNode.mk .rootK (TNode.mk .trashK tcs :: rest2),
              TNode.mk (.catalogK (Entity.mk u0 ty0 a0 true)) ecs) := by
    unfold findRemoveNode
    rw [show (TNode.mk .rootK (TNode.mk .trashK
          (tcs ++ [TNode.mk (.catalogK (Entity.mk u0 ty0 a0 true)) ecs]) :: rest2)).children
        = TNode.mk .trashK
            (tcs ++ [TNode.mk (.catalogK (Entity.mk u0 ty0 a0 true)) ecs]) :: rest2
        from rfl, hfind2]
    rfl
  have hrsTree : handleTrashRestore gen
      (TNode.mk .rootK (TNode.mk .trashK
        (tcs ++ [TNode.mk (.catalogK (Entity.mk u0 ty0 a0 true)) ecs]) :: rest2))
      [(u0, Entity.mk u0 ty0 a0 false)]
      = TNode.mk .rootK (insertAtPathList gen 0 (TNode.mk .trashK tcs :: rest2)
          (entityPath (Entity.mk u0 ty0 a0 false))
          (TNode.mk (.catalogK (Entity.mk u0 ty0 a0 false)) ecs)) := by
    simp only [handleTrashRestore]
    rw [hfrn2]
    rfl
  have hskip := insertAtPathList_trash_head gen 0
    (entityPath (Entity.mk u0 ty0 a0 false))
    (TNode.mk (.catalogK (Entity.mk u0 ty0 a0 false)) ecs) tcs rest2
  have hcnd : countU u0 (TNode.mk (.catalogK (Entity.mk u0 ty0 a0 false)) ecs) = 1 := by
    simp [countU, matchesKind, isCatalogKind]
  have hrest2z : countUList u0 rest2 = 0 := by
    have hc : countUList u0 rest
        = countU u0 (TNode.mk (.catalogK (Entity.mk u0 ty0 a0 false)) ecs)
          + countUList u0 rest2 := findRemove_count rest rest2
      (TNode.mk (.catalogK (Entity.mk u0 ty0 a0 false)) ecs) hfind
    have hcount2 : countUList u0 rest = 1 := hcount
    omega
  have hndC : matchesKind u0
      (TNode.mk (.catalogK (Entity.mk u0 ty0 a0 false)) ecs).kind = true := by
    simp [matchesKind, TNode.kind]
  obtain ⟨rest4, hf3, hc4⟩ := findRemove_insertAtPathList u0 gen hgen2 0
    (entityPath (Entity.mk u0 ty0 a0 false)) rest2
    (TNode.mk (.catalogK (Entity.mk u0 ty0 a0 false)) ecs) hrest2z hndC
  have hc3 : countUList u0 (insertAtPathList gen 0 rest2
      (entityPath (Entity.mk u0 ty0 a0 false))
      (TNode.mk (.catalogK (Entity.mk u0 ty0 a0 false)) ecs)) = 1 := by
    have hcc := findRemove_count _ rest4
      (TNode.mk (.catalogK (Entity.mk u0 ty0 a0 false)) ecs) hf3
    omega
  refine ⟨insertAtPathList gen 0 rest2 (entityPath (Entity.mk u0 ty0 a0 false))
      (TNode.mk (.catalogK (Entity.mk u0 ty0 a0 false)) ecs), rest4,
    hmv, hrs, ?_, hf3, hc3⟩
  show handleTrashRestore gen
      (handleTrashRestore gen
        (TNode.mk .rootK (TNode.mk .trashK tcs :: rest))
        [(u0, Entity.mk u0 ty0 a0 true)])
      [(u0, Entity.mk u0 ty0 a0 false)]
    = TNode.mk .rootK (TNode.mk .trashK tcs :: insertAtPathList gen 0 rest2
        (entityPath (Entity.mk u0 ty0 a0 false))
        (TNode.mk (.catalogK (Entity.mk u0 ty0 a0 false)) ecs))
  rw [hmvTree, hrsTree, hskip]

/-- A concrete non-trashed catalogue for the tree-roundtrip witness. -/
def sampleCatC5 : Entity := ⟨"c1", .catalogue, [("name", AttrValue.str "cat")], false⟩

/-- A one-entity store holding `sampleCatC5`. -/
def sampleStoreC5 : Store := ⟨[sampleCatC5], []⟩

/-- The main-tree forest holding exactly the catalogue node for
`sampleCatC5`. -/
def sampleTreeRestC5 : List TNode := [TNode.mk (.catalogK sampleCatC5) []]

/-- Witness for `moveToTrash_restore_tree_roundtrip` at `sampleStoreC5`
with an empty trash subtree. -/
theorem moveToTrash_restore_tree_roundtrip_witness :
    ∃ rest3 rest4,
      moveToTrashActionRun sampleStoreC5 [sampleCatC5.uuid]
        = .ok (setTrash sampleStoreC5 sampleCatC5.uuid true,
               [{ sampleCatC5 with in_trash := true }]) ∧
      restoreFromTrashActionRun (setTrash sampleStoreC5 sampleCatC5.uuid true)
          [sampleCatC5.uuid]
        = .ok (setTrash (setTrash sampleStoreC5 sampleCatC5.uuid true)
                 sampleCatC5.uuid false, [sampleCatC5]) ∧
      handleTrashRestore (fun _ => "f")
          (handleTrashRestore (fun _ => "f")
            (TNode.mk .rootK (TNode.mk .trashK [] :: sampleTreeRestC5))
            [(sampleCatC5.uuid, { sampleCatC5 with in_trash := true })])
          [(sampleCatC5.uuid, sampleCatC5)]
        = TNode.mk .rootK (TNode.mk .trashK [] :: rest3) ∧
      findRemoveList sampleCatC5.uuid rest3
        = some (rest4, TNode.mk (.catalogK sampleCatC5) []) ∧
      countUList sampleCatC5.uuid rest3 = 1 :=
  moveToTrash_restore_tree_roundtrip sampleStoreC5 sampleCatC5 [] sampleTreeRestC5 [] []
    (fun _ => "f")
    ⟨by decide, by decide⟩
    (by decide)
    (by decide)
    (fun i => show ("f" : String) ≠ sampleCatC5.uuid from by decide)
    (by decide)
    (by simp [findRemoveList, matchesKind, sampleCatC5, sampleTreeRestC5])
    (by decide)
